import Mathlib

/-!
Shallow embedding of the tauri-sensor-viz core (src/src-tauri/src/csv_processor.rs
and src/src-tauri/src/lib.rs) and proofs of the frozen claims.

Modelling conventions:
* `f64` sensor values are modelled as `ℚ`; missing values are `Option.none`
  (the source uses `Option<f64>`).  `f64::powf` and `str::parse::<f64>` are
  external library operations and appear as explicit function parameters.
* File/terminal I/O is outside the model: `read_csv` is modelled on the header
  fields and raw records the csv reader yields, and `read_merge_csvs` on the
  list of already-parsed per-file tables (one per path, in the given order).
* Rust's panicking index `row.values[idx]` is modelled as an `Except` value
  with the distinguished error `outOfBounds`, so the out-of-bounds branch is
  explicit in the embedding.
* String case folding (`eq_ignore_ascii_case`, `to_lowercase`) and trimming
  are modelled on their ASCII action, which is exact for ASCII header names.
-/

namespace SensorViz

/-- Rust `u8::to_ascii_lowercase`, lifted to characters: fold `A`..`Z`. -/
def asciiLowerChar (c : Char) : Char :=
  if 'A' ≤ c ∧ c ≤ 'Z' then Char.ofNat (c.toNat + 32) else c

/-- ASCII lowercase of a string; `eq_ignore_ascii_case` compares these. -/
def asciiLower (s : String) : String := String.mk (s.data.map asciiLowerChar)

/-- Rust `str::eq_ignore_ascii_case`. -/
def eqIgnoreAsciiCase (a b : String) : Bool := asciiLower a = asciiLower b

/-- Rust `str::to_lowercase`, restricted to its ASCII action (header names in
this pipeline are ASCII; on ASCII `to_lowercase` and ASCII lowering agree). -/
def rustLowercase (s : String) : String := asciiLower s

/-- Whitespace characters for `str::trim` (the ASCII whitespace Rust trims). -/
def isRustWhitespace (c : Char) : Bool :=
  c = ' ' || c = '\t' || c = '\n' || c = '\r'

/-- Rust `str::trim`: drop leading and trailing whitespace. -/
def rustTrim (s : String) : String :=
  String.mk (((s.data.dropWhile isRustWhitespace).reverse.dropWhile isRustWhitespace).reverse)

/-- The header predicate of `read_csv`/`read_merge_csvs`:
`h.eq_ignore_ascii_case("timestamp") || h.eq_ignore_ascii_case("time")`. -/
def isTimestampHeader (h : String) : Bool :=
  eqIgnoreAsciiCase h "timestamp" || eqIgnoreAsciiCase h "time"

/-- Byte-wise (code-point-wise) lexicographic comparison of strings:
Rust's `Ord` for `String`, the order of the merge's `BTreeMap`. -/
def strLtB : List Char → List Char → Bool
  | [], [] => false
  | [], _ :: _ => true
  | _ :: _, [] => false
  | a :: as, b :: bs => if a < b then true else if b < a then false else strLtB as bs

/-- `strLtB` on strings. -/
def strLt (a b : String) : Bool := strLtB a.data b.data

/-- `CsvRecord`: optional timestamp plus the index-aligned optional values. -/
structure CsvRecord where
  timestamp : Option String
  values : List (Option ℚ)
deriving DecidableEq, Repr

/-- `ProcessedData`: headers plus ordered rows. -/
structure ProcessedData where
  headers : List String
  rows : List CsvRecord
deriving DecidableEq, Repr

deriving instance DecidableEq for Except

/-! ## read_csv (csv_processor.rs lines 36-102)

The reader part is modelled by its outputs: the header row's fields and the
raw records (each a list of field strings).  The csv crate's default reader is
not flexible: reading a record whose field count differs from the header row's
returns an error, which `read_csv` propagates with `?`. -/

/-- One field of the parallel parsing fan-out (lines 72-88): the timestamp
column contributes a `None` placeholder to the value sequence; any other
field is `None` when blank, else the result of the float parse. -/
def parseField (parseF64 : String → Option ℚ) (timestampIdx : Option Nat)
    (i : Nat) (field : String) : Option ℚ :=
  if some i = timestampIdx then none
  else if (rustTrim field).isEmpty then none
  else parseF64 field

/-- The values of one parsed record, in field order. -/
def parseFields (parseF64 : String → Option ℚ) (timestampIdx : Option Nat) :
    Nat → List String → List (Option ℚ)
  | _, [] => []
  | i, f :: rest =>
    parseField parseF64 timestampIdx i f :: parseFields parseF64 timestampIdx (i + 1) rest

/-- The timestamp of one parsed record: the field at the timestamp column,
kept only when not blank (lines 75-78). -/
def recordTimestamp (timestampIdx : Option Nat) (raw : List String) : Option String :=
  match timestampIdx with
  | none => none
  | some k =>
    match raw.get? k with
    | none => none
    | some f => if (rustTrim f).isEmpty then none else some f

/-- One row of the parallel parsing fan-out (lines 68-91). -/
def parseRecord (parseF64 : String → Option ℚ) (timestampIdx : Option Nat)
    (raw : List String) : CsvRecord :=
  { timestamp := recordTimestamp timestampIdx raw
    values := parseFields parseF64 timestampIdx 0 raw }

/-- `read_csv`, on the header fields and raw records the reader yields. -/
def read_csv (parseF64 : String → Option ℚ) (headerFields : List String)
    (rawRecords : List (List String)) : Except String ProcessedData :=
  let header_list := headerFields.map rustTrim
  let timestamp_idx := header_list.findIdx? (fun h => isTimestampHeader h)
  if rawRecords.all (fun r => r.length = headerFields.length) then
    Except.ok { headers := header_list
                rows := rawRecords.map (parseRecord parseF64 timestamp_idx) }
  else Except.error "CSV error: record length mismatch"

/-! ## read_merge_csvs (csv_processor.rs lines 104-228)

Modelled on the list of per-file parsed tables (`datasets`); the `BTreeMap` is
an association list kept sorted by ascending `strLt` on the key. -/

/-- The canonical timestamp header (lines 137-140): the first timestamp-like
header of the first dataset, else the literal `"timestamp"`. -/
def canonicalTsHeader (datasets : List ProcessedData) : String :=
  match datasets with
  | [] => "timestamp"
  | d :: _ => ((d.headers.find? (fun h => isTimestampHeader h)).getD "timestamp")

/-- One step of the global-header union (lines 147-157); the state is
(global_headers, seen_headers), the `HashSet` as the list of seen lowercased
names (only membership is used). -/
def addHeader (acc : List String × List String) (h : String) : List String × List String :=
  if isTimestampHeader h then acc
  else if acc.2.contains (rustLowercase h) then acc
  else (acc.1 ++ [h], acc.2 ++ [rustLowercase h])

/-- Global headers (lines 142-157): canonical timestamp first, then every
other header in file order of first case-insensitive appearance. -/
def globalHeadersFold (datasets : List ProcessedData) (canonical : String) : List String :=
  (datasets.foldl (fun acc ds => ds.headers.foldl addHeader acc)
    ([canonical], [rustLowercase canonical])).1

/-- The local-to-global column map of one dataset (lines 169-184): timestamp
columns map to slot 0, others to their position in the global headers, with
the (unreachable) fallback 0 of line 181. -/
def buildColMap (global_headers : List String) (headers : List String) : List Nat :=
  headers.map (fun h =>
    if isTimestampHeader h then 0
    else
      match global_headers.findIdx? (fun gh => eqIgnoreAsciiCase gh h) with
      | some pos => pos
      | none => 0)

/-- A merged row under construction: one value slot per global header. -/
abbrev Entry : Type := List (Option ℚ)

/-- Insert into the association list kept sorted by ascending `strLt`
(the `BTreeMap` insert; an existing binding of the key is replaced). -/
def mapInsert (k : String) (v : Entry) : List (String × Entry) → List (String × Entry)
  | [] => [(k, v)]
  | (k', v') :: rest =>
    if strLt k k' then (k, v) :: (k', v') :: rest
    else if k = k' then (k, v) :: rest
    else (k', v') :: mapInsert k v rest

/-- Lookup in the association list (the `BTreeMap` get). -/
def mapLookup (k : String) : List (String × Entry) → Option Entry
  | [] => none
  | (k', v') :: rest => if k = k' then some v' else mapLookup k rest

/-- The write loop of lines 192-202 over one row's values, carrying the local
index: a present value is written at its mapped global index, a missing value
writes nothing, and indices at or beyond the map's length are skipped. -/
def applyRowWrites (col_map : List Nat) : Nat → List (Option ℚ) → Entry → Entry
  | _, [], entry => entry
  | i, v :: rest, entry =>
    applyRowWrites col_map (i + 1) rest
      (if i < col_map.length then
        match v with
        | some x => entry.set (col_map.getD i 0) (some x)
        | none => entry
      else entry)

/-- Folding one row into the accumulator (lines 186-204): rows without a
timestamp are skipped; otherwise the row's writes are applied to the existing
entry for its timestamp, or to a fresh all-missing entry. -/
def mergeRow (global_len : Nat) (col_map : List Nat)
    (m : List (String × Entry)) (row : CsvRecord) : List (String × Entry) :=
  match row.timestamp with
  | none => m
  | some ts =>
    let entry := (mapLookup ts m).getD (List.replicate global_len none)
    mapInsert ts (applyRowWrites col_map 0 row.values entry) m

/-- Folding one dataset into the accumulator (lines 167-205). -/
def mergeDataset (global_headers : List String)
    (m : List (String × Entry)) (ds : ProcessedData) : List (String × Entry) :=
  let col_map := buildColMap global_headers ds.headers
  ds.rows.foldl (mergeRow global_headers.length col_map) m

/-- `read_merge_csvs` on the per-file parsed tables.  An empty input errors
(lines 105-107 and 115-117 both collapse to this check, since one dataset is
produced per path); otherwise the accumulator's rows are emitted in ascending
key order as the merged table. -/
def read_merge_csvs (datasets : List ProcessedData) : Except String ProcessedData :=
  if datasets.isEmpty then Except.error "No file paths provided"
  else
    let canonical := canonicalTsHeader datasets
    let global_headers := globalHeadersFold datasets canonical
    let merged_map := datasets.foldl (mergeDataset global_headers) []
    Except.ok { headers := global_headers
                rows := merged_map.map (fun p => { timestamp := some p.1, values := p.2 }) }

/-! ## get_data (lib.rs lines 37-103)

The tauri window events are modelled as the emitted list of stream events. -/

/-- An emitted event: a chunk payload or the terminal end-of-stream signal. -/
inductive StreamEvent where
  | chunk (payload : ProcessedData)
  | streamEnd
deriving DecidableEq, Repr

/-- `CHUNK_SIZE` (line 57). -/
def CHUNK_SIZE : Nat := 5000

/-- Rust `slice::chunks k`: contiguous chunks in order, every chunk of size
`k` except a shorter final remainder; the empty slice yields no chunks. -/
def chunksOf (k : Nat) : List α → List (List α)
  | [] => []
  | x :: xs => (x :: xs.take (k - 1)) :: chunksOf k (xs.drop (k - 1))
termination_by l => l.length
decreasing_by
  simp only [List.length_cons, List.length_drop]
  omega

/-- The projected column indices (lines 48-53): for each requested sensor, its
first exactly-matching header position; absent names contribute nothing. -/
def projIndices (sensors headers : List String) : List Nat :=
  sensors.filterMap (fun s => headers.findIdx? (fun h => h = s))

/-- Projection of one row (lines 65-79): the requested columns in requested
order, out-of-range indices degrading to missing; the timestamp unchanged. -/
def projectRow (indices : List Nat) (row : CsvRecord) : CsvRecord :=
  { timestamp := row.timestamp
    values := indices.map (fun idx =>
      if idx < row.values.length then row.values.getD idx none else none) }

/-- `get_data`: the chunked projection stream. -/
def get_data (sensors : List String) (data : ProcessedData) : List StreamEvent :=
  let indices := projIndices sensors data.headers
  ((chunksOf CHUNK_SIZE data.rows).map (fun chunk =>
    StreamEvent.chunk { headers := sensors, rows := chunk.map (projectRow indices) }))
  ++ [StreamEvent.streamEnd]

/-! ## calculate_new_sensor (lib.rs lines 183-387) -/

/-- `SingleOperation` (lines 183-188). -/
structure SingleOperation where
  op_type : String
  value : ℚ
deriving DecidableEq, Repr

/-- `MultiOperation` (lines 190-196). -/
structure MultiOperation where
  op_type : String
  base_sensor : Option String
deriving DecidableEq, Repr

/-- `SensorOperationConfig` (lines 198-207). -/
structure SensorOperationConfig where
  mode : String
  single_op : Option SingleOperation
  multi_op : Option MultiOperation
  custom_name : Option String

/-- The error Rust's panicking index raises out of `row.values[idx]`. -/
def outOfBounds : String := "index out of bounds"

/-- `row.values[idx]`: the value when in bounds, the panic otherwise. -/
def getValue (values : List (Option ℚ)) (i : Nat) : Except String (Option ℚ) :=
  if h : i < values.length then Except.ok (values.get ⟨i, h⟩) else Except.error outOfBounds

/-- The operator symbol of a single operation (lines 241-248). -/
def singleOpSymbol (op_type : String) : Option String :=
  if op_type = "add" then some "+"
  else if op_type = "subtract" then some "-"
  else if op_type = "multiply" then some "*"
  else if op_type = "divide" then some "/"
  else if op_type = "power" then some "^"
  else none

/-- One row of the single-operand loop (lines 252-271): missing input gives a
missing output; divide by a zero literal gives a missing output. -/
def singleOpRow (powf : ℚ → ℚ → ℚ) (op : SingleOperation) (idx : Nat)
    (row : CsvRecord) : Except String (Option ℚ) :=
  match getValue row.values idx with
  | Except.error e => Except.error e
  | Except.ok val =>
    Except.ok (match val with
      | some v =>
        if op.op_type = "add" then some (v + op.value)
        else if op.op_type = "subtract" then some (v - op.value)
        else if op.op_type = "multiply" then some (v * op.value)
        else if op.op_type = "divide" then
          (if op.value ≠ 0 then some (v / op.value) else none)
        else if op.op_type = "power" then some (powf v op.value)
        else none
      | none => none)

/-- The multi display name of the new sensor (lines 276-284). -/
def multiOpName (op_type : String) : Option String :=
  if op_type = "sum" then some "Sum"
  else if op_type = "mean" then some "Avg"
  else if op_type = "median" then some "Median"
  else if op_type = "product" then some "Product"
  else if op_type = "subtract" then some "Diff"
  else if op_type = "divide" then some "Ratio"
  else none

/-- The accumulator of the base/others scan (lines 298-311): the designated
base sensor's present value, the sum of the other present values, and their
count (the count is computed but never read afterwards, as in the source). -/
structure BaseAcc where
  base_val : Option ℚ
  others_sum : ℚ
  count : Nat
deriving Repr

/-- The scan of lines 313-323 over (sensor name, column index) pairs: a present
value either becomes the base value (overwriting an earlier one) or is added
to the others' sum. -/
def multiBaseScan (base_sensor : String) (row : CsvRecord) :
    List (String × Nat) → BaseAcc → Except String BaseAcc
  | [], acc => Except.ok acc
  | (name, idx) :: rest, acc =>
    match getValue row.values idx with
    | Except.error e => Except.error e
    | Except.ok val_opt =>
      multiBaseScan base_sensor row rest
        (match val_opt with
         | some v =>
           if name = base_sensor then { acc with base_val := some v }
           else { acc with others_sum := acc.others_sum + v, count := acc.count + 1 }
         | none => acc)

/-- One row of the multi subtract/divide loop (lines 302-339), including the
per-row unwrap of the base sensor option (line 303). -/
def multiBaseRow (op_type : String) (base_sensor : Option String)
    (pairs : List (String × Nat)) (row : CsvRecord) : Except String (Option ℚ) :=
  match base_sensor with
  | none => Except.error "Missing base sensor"
  | some base =>
    match multiBaseScan base row pairs { base_val := none, others_sum := 0, count := 0 } with
    | Except.error e => Except.error e
    | Except.ok acc =>
      Except.ok (match acc.base_val with
        | some b =>
          if op_type = "subtract" then some (b - acc.others_sum)
          else if acc.others_sum ≠ 0 then some (b / acc.others_sum)
          else none
        | none => none)

/-- The valid-value collection of lines 342-346: the present values at the
selected indices, in selection order. -/
def collectValid (row : CsvRecord) : List Nat → Except String (List ℚ)
  | [] => Except.ok []
  | idx :: rest =>
    match getValue row.values idx with
    | Except.error e => Except.error e
    | Except.ok v =>
      match collectValid row rest with
      | Except.error e => Except.error e
      | Except.ok tail =>
        Except.ok (match v with
          | some x => x :: tail
          | none => tail)

/-- One row of the multi aggregation loop (lines 341-370).  The sort of line
358 ascends; on `ℚ` the sorted permutation is unique, so `insertionSort`
models `sort_by(partial_cmp)` exactly.  The nonempty guard of line 348 keeps
the median's two index accesses in bounds, so they appear as `getD`. -/
def multiAggRow (op_type : String) (indices : List Nat) (row : CsvRecord) :
    Except String (Option ℚ) :=
  match collectValid row indices with
  | Except.error e => Except.error e
  | Except.ok valid_values =>
    Except.ok (if valid_values.isEmpty then none
    else if op_type = "sum" then some valid_values.sum
    else if op_type = "mean" then some (valid_values.sum / (valid_values.length : ℚ))
    else if op_type = "product" then some valid_values.prod
    else if op_type = "median" then
      (let sorted := List.insertionSort (· ≤ ·) valid_values
       let mid := sorted.length / 2
       if sorted.length % 2 = 0 then some ((sorted.getD (mid - 1) 0 + sorted.getD mid 0) / 2)
       else some (sorted.getD mid 0))
    else none)

/-- Lines 376-381: a non-blank custom name overrides the default name. -/
def finalName (custom : Option String) (default_name : String) : String :=
  match custom with
  | some name => if (rustTrim name).isEmpty then default_name else name
  | none => default_name

/-- Rust `{:?}` of a `Vec<String>`, as used for the aggregation name. -/
def debugListString (l : List String) : String :=
  "[" ++ String.intercalate ", " (l.map (fun s => "\"" ++ s ++ "\"")) ++ "]"

/-- The index resolution of lines 225-231: each sensor's exact header
position, erroring on the first unknown sensor. -/
def findSensorIndices (headers : List String) : List String → Except String (List Nat)
  | [] => Except.ok []
  | s :: rest =>
    match headers.findIdx? (fun h => h = s) with
    | some idx =>
      match findSensorIndices headers rest with
      | Except.ok tail => Except.ok (idx :: tail)
      | Except.error e => Except.error e
    | none => Except.error ("Sensor not found: " ++ s)

/-- The in-place calculation loop: each row gets the computed value appended;
a panic (error) stops the loop, leaving that row and the later ones without
the new value, as the unwinding mutation does. -/
def appendColumn (f : CsvRecord → Except String (Option ℚ)) :
    List CsvRecord → List CsvRecord × Option String
  | [] => ([], none)
  | r :: rs =>
    match f r with
    | Except.ok v =>
      ({ r with values := r.values ++ [v] } :: (appendColumn f rs).1, (appendColumn f rs).2)
    | Except.error e => (r :: rs, some e)

/-- The outcome of the row loop folded into the command's result: on a panic
the headers are not pushed and the error surfaces; otherwise the (possibly
custom) name is pushed onto the headers and returned. -/
def finishCalc (data : ProcessedData) (custom : Option String) (default_name : String)
    (out : List CsvRecord × Option String) : ProcessedData × Except String String :=
  match out.2 with
  | some e => ({ data with rows := out.1 }, Except.error e)
  | none =>
    let name := finalName custom default_name
    ({ headers := data.headers ++ [name], rows := out.1 }, Except.ok name)

/-- `calculate_new_sensor` (lines 209-387): the post-state of the session
table paired with the command's result. -/
def calculate_new_sensor (powf : ℚ → ℚ → ℚ) (sensors : List String)
    (config : SensorOperationConfig) (data : ProcessedData) :
    ProcessedData × Except String String :=
  if sensors.isEmpty then (data, Except.error "No sensors selected")
  else
    match findSensorIndices data.headers sensors with
    | Except.error e => (data, Except.error e)
    | Except.ok indices =>
      if config.mode = "single" then
        if sensors.length ≠ 1 then (data, Except.error "Single mode requires exactly one sensor")
        else
          match config.single_op with
          | none => (data, Except.error "Missing singleOp config")
          | some op =>
            match singleOpSymbol op.op_type with
            | none => (data, Except.error "Invalid single operation type")
            | some op_symbol =>
              let default_name := sensors.headD "" ++ " " ++ op_symbol ++ " " ++ toString op.value
              finishCalc data config.custom_name default_name
                (appendColumn (singleOpRow powf op (indices.headD 0)) data.rows)
      else if config.mode = "multi" then
        match config.multi_op with
        | none => (data, Except.error "Missing multiOp config")
        | some op =>
          match multiOpName op.op_type with
          | none => (data, Except.error "Invalid multi operation type")
          | some op_name =>
            if op.op_type = "subtract" ∨ op.op_type = "divide" then
              match op.base_sensor with
              | none => (data, Except.error "Missing base sensor for subtract/divide")
              | some base =>
                let default_name := op_name ++ "(" ++ base ++ ", others)"
                finishCalc data config.custom_name default_name
                  (appendColumn (multiBaseRow op.op_type op.base_sensor (sensors.zip indices)) data.rows)
            else
              let default_name := op_name ++ "(" ++ debugListString sensors ++ ")"
              finishCalc data config.custom_name default_name
                (appendColumn (multiAggRow op.op_type indices) data.rows)
      else (data, Except.error "Invalid mode")

/-! ## Observers used to state the claims -/

/-- The value a finished loop computed for one row (errors never reach the
push, so they carry no value). -/
def okValue (e : Except String (Option ℚ)) : Option ℚ :=
  match e with
  | Except.ok v => v
  | Except.error _ => none

/-- The present values one row writes into global column `g`, in write order;
`i` is the local index of the first listed value. -/
def rowWritesAt (col_map : List Nat) (g : Nat) : Nat → List (Option ℚ) → List ℚ
  | _, [] => []
  | i, v :: rest =>
    (if i < col_map.length ∧ col_map.getD i 0 = g then v.toList else []) ++
      rowWritesAt col_map g (i + 1) rest

/-- The present values a row list writes into cell (`ts`, `g`), in processing
order: only rows carrying exactly timestamp `ts` contribute. -/
def rowsWritesAt (col_map : List Nat) (rows : List CsvRecord) (ts : String) (g : Nat) : List ℚ :=
  (rows.filter (fun r => r.timestamp == some ts)).flatMap
    (fun r => rowWritesAt col_map g 0 r.values)

/-- The present values one dataset writes into cell (`ts`, `g`). -/
def datasetWritesAt (global_headers : List String) (ds : ProcessedData)
    (ts : String) (g : Nat) : List ℚ :=
  rowsWritesAt (buildColMap global_headers ds.headers) ds.rows ts g

/-- The present values the whole merge writes into cell (`ts`, `g`), files in
caller-supplied order. -/
def allWritesAt (global_headers : List String) (datasets : List ProcessedData)
    (ts : String) (g : Nat) : List ℚ :=
  datasets.flatMap (fun ds => datasetWritesAt global_headers ds ts g)

/-- The merge accumulator invariant: a key absent from the map has no writes
so far, and a key's entry holds, per column, the last write so far (or
missing when the cell was never written). -/
abbrev MergeInv (L : Nat) (W : String → Nat → List ℚ) (m : List (String × Entry)) : Prop :=
  (∀ ts, mapLookup ts m = none → ∀ g, W ts g = []) ∧
  (∀ ts e, mapLookup ts m = some e →
    e.length = L ∧ ∀ g, g < L → e.getD g none = (W ts g).getLast?)

/-- The keys of the merge accumulator, in list order. -/
abbrev mapKeys (m : List (String × Entry)) : List String := m.map Prod.fst

/-- Strict ascent in the byte-wise string order. -/
abbrev StrAsc (l : List String) : Prop := List.Pairwise (fun a b => strLt a b = true) l

/-- The accumulator's keys ascend strictly. -/
abbrev keysSorted (m : List (String × Entry)) : Prop := StrAsc (mapKeys m)

/-- Stated from the spec, for the single-file-merge claim: the table parsed
directly, with the timestamp column renamed to the canonical name and moved
to header index 0, each row's values re-aligned accordingly. -/
def moveTimestampToFront (d : ProcessedData) : ProcessedData :=
  let k := (d.headers.findIdx? (fun h => isTimestampHeader h)).getD 0
  let canonical := (d.headers.find? (fun h => isTimestampHeader h)).getD "timestamp"
  { headers := canonical :: d.headers.eraseIdx k
    rows := d.rows.map (fun r =>
      { timestamp := r.timestamp, values := r.values.getD k none :: r.values.eraseIdx k }) }

/-! ## Concrete tables used by the witnesses and the counterexample -/

/-- File 1 of the two-file example: headers `Time, A, B`. -/
def exD1 : ProcessedData :=
  { headers := ["Time", "A", "B"]
    rows := [ { timestamp := some "t1", values := [none, some 1, some 2] },
              { timestamp := some "t2", values := [none, some 3, some 4] } ] }

/-- File 2 of the two-file example: headers `Timestamp, B, C`; it also
supplies a value for `B` at `t1`. -/
def exD2 : ProcessedData :=
  { headers := ["Timestamp", "B", "C"]
    rows := [ { timestamp := some "t1", values := [none, some 20, some 5] } ] }

/-- The merged table of the two-file example. -/
def exMerged : ProcessedData :=
  { headers := ["Time", "A", "B", "C"]
    rows := [ { timestamp := some "t1", values := [none, some 1, some 20, some 5] },
              { timestamp := some "t2", values := [none, some 3, some 4, none] } ] }

/-- A stand-in for the external float parser at concrete inputs. -/
def exParse (s : String) : Option ℚ :=
  if s = "1" then some 1 else if s = "2" then some 2 else none

/-- A single parsed file whose rows descend by timestamp: parsing keeps the
input row order, merging sorts by timestamp. -/
def cexSingle : ProcessedData :=
  { headers := ["time", "A"]
    rows := [ { timestamp := some "b", values := [none, some 1] },
              { timestamp := some "a", values := [none, some 2] } ] }

/-- A single parsed file in ascending timestamp order, for the amended
single-file-merge claim. -/
def exSingleSorted : ProcessedData :=
  { headers := ["time", "A"]
    rows := [ { timestamp := some "a", values := [none, some 2] },
              { timestamp := some "b", values := [none, some 1] } ] }

/-! ## Basic facts about the embedded operations -/

theorem getValue_ok {values : List (Option ℚ)} {i : Nat} (h : i < values.length) :
    getValue values i = Except.ok (values.getD i none) := by
  simp [getValue, h, List.getD_eq_getElem values none h, List.get_eq_getElem]

theorem getValue_error {values : List (Option ℚ)} {i : Nat} {e : String}
    (h : getValue values i = Except.error e) : e = outOfBounds := by
  unfold getValue at h
  split at h
  · exact absurd h (by simp)
  · simp only [Except.error.injEq] at h
    exact h.symm

theorem parseFields_length (pf : String → Option ℚ) (t : Option Nat) :
    ∀ (i : Nat) (raw : List String), (parseFields pf t i raw).length = raw.length
  | _, [] => rfl
  | i, f :: rest => by
    simp only [parseFields, List.length_cons]
    rw [parseFields_length pf t (i + 1) rest]

/-- Full characterization of `findIdx?` with an explicit start index. -/
theorem findIdx?_some_spec {α : Type} (p : α → Bool) (d : α) :
    ∀ (l : List α) (s j : Nat), List.findIdx? p l s = some j →
      s ≤ j ∧ j - s < l.length ∧ p (l.getD (j - s) d) = true ∧
        ∀ t, t < j - s → p (l.getD t d) = false
  | [], s, j => by simp [List.findIdx?]
  | x :: xs, s, j => by
    rw [List.findIdx?_cons]
    split
    next hpx =>
      intro h
      simp only [Option.some.injEq] at h
      subst h
      refine ⟨le_refl _, by simp, ?_, ?_⟩
      · simpa [Nat.sub_self] using hpx
      · intro t ht
        omega
    next hpx =>
      intro h
      obtain ⟨h1, h2, h3, h4⟩ := findIdx?_some_spec p d xs (s + 1) j h
      have hj : s < j := by omega
      have hsub : j - s = (j - (s + 1)) + 1 := by omega
      refine ⟨by omega, by simp only [List.length_cons]; omega, ?_, ?_⟩
      · rw [hsub, List.getD_cons_succ]
        exact h3
      · intro t ht
        match t with
        | 0 =>
          rw [List.getD_cons_zero]
          simp only [Bool.not_eq_true] at hpx
          exact hpx
        | t' + 1 =>
          rw [List.getD_cons_succ]
          exact h4 t' (by omega)

/-- The converse: a first satisfied position determines `findIdx?`. -/
theorem findIdx?_eq_some_of {α : Type} (p : α → Bool) (d : α) :
    ∀ (l : List α) (j s : Nat), j < l.length → p (l.getD j d) = true →
      (∀ t, t < j → p (l.getD t d) = false) → List.findIdx? p l s = some (s + j)
  | [], j, s, hj, _, _ => absurd hj (by simp)
  | x :: xs, 0, s, hj, hp, hb => by
    rw [List.findIdx?_cons]
    rw [List.getD_cons_zero] at hp
    simp [hp]
  | x :: xs, j + 1, s, hj, hp, hb => by
    rw [List.findIdx?_cons]
    have hx : p x = false := by
      have := hb 0 (Nat.succ_pos j)
      rwa [List.getD_cons_zero] at this
    rw [List.getD_cons_succ] at hp
    have ih := findIdx?_eq_some_of p d xs j (s + 1) (by simpa using hj) hp
      (fun t ht => by
        have := hb (t + 1) (by omega)
        rwa [List.getD_cons_succ] at this)
    rw [hx]
    simp only [Bool.false_eq_true, if_false]
    rw [ih]
    congr 1
    omega

theorem findSensorIndices_bounds {headers : List String} :
    ∀ {sensors : List String} {idxs : List Nat},
      findSensorIndices headers sensors = Except.ok idxs → ∀ i ∈ idxs, i < headers.length
  | [], idxs, h => by
    simp only [findSensorIndices, Except.ok.injEq] at h
    subst h
    intro i hi
    exact absurd hi (by simp)
  | s :: rest, idxs, h => by
    unfold findSensorIndices at h
    split at h
    next idx hfound =>
      split at h
      next tail htail =>
        simp only [Except.ok.injEq] at h
        subst h
        intro i hi
        rcases List.mem_cons.mp hi with rfl | hi'
        · have := findIdx?_some_spec (fun h => h = s) "" headers 0 i hfound
          simpa using this.2.1
        · exact findSensorIndices_bounds htail i hi'
      next => exact absurd h (by simp)
    next => exact absurd h (by simp)

theorem findSensorIndices_length {headers : List String} :
    ∀ {sensors : List String} {idxs : List Nat},
      findSensorIndices headers sensors = Except.ok idxs → idxs.length = sensors.length
  | [], idxs, h => by
    simp only [findSensorIndices, Except.ok.injEq] at h
    subst h
    rfl
  | s :: rest, idxs, h => by
    unfold findSensorIndices at h
    split at h
    next idx hfound =>
      split at h
      next tail htail =>
        simp only [Except.ok.injEq] at h
        subst h
        simp only [List.length_cons]
        rw [findSensorIndices_length htail]
      next => exact absurd h (by simp)
    next => exact absurd h (by simp)

theorem findSensorIndices_error {headers : List String} :
    ∀ {sensors : List String} {e : String},
      findSensorIndices headers sensors = Except.error e →
      ∃ s, e = "Sensor not found: " ++ s
  | [], e, h => by simp [findSensorIndices] at h
  | s :: rest, e, h => by
    unfold findSensorIndices at h
    split at h
    next idx hfound =>
      split at h
      next => exact absurd h (by simp)
      next e' htail =>
        simp only [Except.error.injEq] at h
        subst h
        exact findSensorIndices_error htail
    next =>
      simp only [Except.error.injEq] at h
      exact ⟨s, h.symm⟩

theorem sensorNotFound_ne (s : String) : ("Sensor not found: " ++ s) ≠ outOfBounds := by
  intro h
  have h2 : ("Sensor not found: " ++ s).data = outOfBounds.data := congrArg String.data h
  have h3 : ("Sensor not found: " ++ s).data = "Sensor not found: ".data ++ s.data := rfl
  rw [h3] at h2
  have h4 := congrArg List.head? h2
  simp [String.data, outOfBounds] at h4

theorem appendColumn_all_ok {f : CsvRecord → Except String (Option ℚ)} :
    ∀ {rows : List CsvRecord}, (∀ r ∈ rows, ∃ v, f r = Except.ok v) →
      appendColumn f rows =
        (rows.map (fun r => { r with values := r.values ++ [okValue (f r)] }), none)
  | [], _ => rfl
  | r :: rs, h => by
    obtain ⟨v, hv⟩ := h r (List.mem_cons_self r rs)
    have ih := appendColumn_all_ok (fun x hx => h x (List.mem_cons_of_mem r hx))
    simp [appendColumn, hv, ih, okValue]

theorem appendColumn_error {f : CsvRecord → Except String (Option ℚ)} :
    ∀ {rows : List CsvRecord} {e : String},
      (appendColumn f rows).2 = some e → ∃ r ∈ rows, f r = Except.error e
  | [], e, h => by simp [appendColumn] at h
  | r :: rs, e, h => by
    unfold appendColumn at h
    split at h
    next v hv =>
      simp only at h
      obtain ⟨r', hr', he⟩ := appendColumn_error h
      exact ⟨r', List.mem_cons_of_mem r hr', he⟩
    next e' he' =>
      simp only [Option.some.injEq] at h
      subst h
      exact ⟨r, List.mem_cons_self r rs, he'⟩

theorem appendColumn_none {f : CsvRecord → Except String (Option ℚ)} :
    ∀ {rows : List CsvRecord}, (appendColumn f rows).2 = none →
      (appendColumn f rows).1 =
        rows.map (fun r => { r with values := r.values ++ [okValue (f r)] })
  | [], _ => rfl
  | r :: rs, h => by
    cases hv : f r with
    | ok v =>
      unfold appendColumn at h ⊢
      rw [hv] at h ⊢
      simp only at h ⊢
      rw [appendColumn_none h]
      simp [okValue, hv]
    | error e' =>
      unfold appendColumn at h
      rw [hv] at h
      simp at h

theorem singleOpRow_isOk {powf : ℚ → ℚ → ℚ} {op : SingleOperation} {idx : Nat}
    {row : CsvRecord} (h : idx < row.values.length) :
    ∃ v, singleOpRow powf op idx row = Except.ok v := by
  unfold singleOpRow
  rw [getValue_ok h]
  exact ⟨_, rfl⟩

theorem singleOpRow_error {powf : ℚ → ℚ → ℚ} {op : SingleOperation} {idx : Nat}
    {row : CsvRecord} {e : String} (h : singleOpRow powf op idx row = Except.error e) :
    e = outOfBounds := by
  unfold singleOpRow at h
  split at h
  next e' he' =>
    simp only [Except.error.injEq] at h
    exact h ▸ getValue_error he'
  next => exact absurd h (by simp)

theorem multiBaseScan_isOk {base : String} {row : CsvRecord} :
    ∀ {pairs : List (String × Nat)} {acc : BaseAcc},
      (∀ p ∈ pairs, p.2 < row.values.length) →
      ∃ a, multiBaseScan base row pairs acc = Except.ok a
  | [], acc, _ => ⟨acc, rfl⟩
  | (name, idx) :: rest, acc, h => by
    unfold multiBaseScan
    rw [getValue_ok (h (name, idx) (List.mem_cons_self _ _))]
    exact multiBaseScan_isOk (fun p hp => h p (List.mem_cons_of_mem _ hp))

theorem multiBaseScan_error {base : String} {row : CsvRecord} :
    ∀ {pairs : List (String × Nat)} {acc : BaseAcc} {e : String},
      multiBaseScan base row pairs acc = Except.error e → e = outOfBounds
  | [], acc, e, h => by simp [multiBaseScan] at h
  | (name, idx) :: rest, acc, e, h => by
    unfold multiBaseScan at h
    split at h
    next e' he' =>
      simp only [Except.error.injEq] at h
      exact h ▸ getValue_error he'
    next => exact multiBaseScan_error h

theorem multiBaseRow_isOk {op_type base : String} {pairs : List (String × Nat)}
    {row : CsvRecord} (h : ∀ p ∈ pairs, p.2 < row.values.length) :
    ∃ v, multiBaseRow op_type (some base) pairs row = Except.ok v := by
  unfold multiBaseRow
  dsimp only
  obtain ⟨a, ha⟩ := @multiBaseScan_isOk base row pairs
    { base_val := none, others_sum := 0, count := 0 } h
  rw [ha]
  exact ⟨_, rfl⟩

theorem multiBaseRow_error {op_type base : String} {pairs : List (String × Nat)}
    {row : CsvRecord} {e : String}
    (h : multiBaseRow op_type (some base) pairs row = Except.error e) : e = outOfBounds := by
  unfold multiBaseRow at h
  dsimp only at h
  split at h
  next e' he' =>
    simp only [Except.error.injEq] at h
    exact h ▸ multiBaseScan_error he'
  next => exact absurd h (by simp)

theorem collectValid_isOk {row : CsvRecord} :
    ∀ {indices : List Nat}, (∀ i ∈ indices, i < row.values.length) →
      ∃ l, collectValid row indices = Except.ok l
  | [], _ => ⟨[], rfl⟩
  | idx :: rest, h => by
    unfold collectValid
    rw [getValue_ok (h idx (List.mem_cons_self _ _))]
    obtain ⟨l, hl⟩ := collectValid_isOk (fun i hi => h i (List.mem_cons_of_mem _ hi))
    rw [hl]
    exact ⟨_, rfl⟩

theorem collectValid_error {row : CsvRecord} :
    ∀ {indices : List Nat} {e : String},
      collectValid row indices = Except.error e → e = outOfBounds
  | [], e, h => by simp [collectValid] at h
  | idx :: rest, e, h => by
    unfold collectValid at h
    split at h
    next e' he' =>
      simp only [Except.error.injEq] at h
      exact h ▸ getValue_error he'
    next v hv =>
      split at h
      next e' he' =>
        simp only [Except.error.injEq] at h
        exact h ▸ collectValid_error he'
      next => exact absurd h (by simp)

theorem multiAggRow_isOk {op_type : String} {indices : List Nat} {row : CsvRecord}
    (h : ∀ i ∈ indices, i < row.values.length) :
    ∃ v, multiAggRow op_type indices row = Except.ok v := by
  unfold multiAggRow
  obtain ⟨l, hl⟩ := collectValid_isOk h
  rw [hl]
  exact ⟨_, rfl⟩

theorem multiAggRow_error {op_type : String} {indices : List Nat} {row : CsvRecord}
    {e : String} (h : multiAggRow op_type indices row = Except.error e) : e = outOfBounds := by
  unfold multiAggRow at h
  split at h
  next e' he' =>
    simp only [Except.error.injEq] at h
    exact h ▸ collectValid_error he'
  next => exact absurd h (by simp)

theorem finishCalc_none {data : ProcessedData} {custom : Option String}
    {default_name : String} {out : List CsvRecord × Option String} (h : out.2 = none) :
    finishCalc data custom default_name out =
      ({ headers := data.headers ++ [finalName custom default_name], rows := out.1 },
        Except.ok (finalName custom default_name)) := by
  unfold finishCalc
  rw [h]

theorem finishCalc_some {data : ProcessedData} {custom : Option String}
    {default_name : String} {out : List CsvRecord × Option String} {e : String}
    (h : out.2 = some e) :
    finishCalc data custom default_name out =
      ({ data with rows := out.1 }, Except.error e) := by
  unfold finishCalc
  rw [h]

/-- The structure of every `calculate_new_sensor` call: either a
pre-computation (configuration) error with the table untouched, or the
in-place loop over the rows with a row function that can only fail with the
out-of-bounds panic, and cannot fail at all on a row with at least one value
slot per header. -/
theorem calc_structure (powf : ℚ → ℚ → ℚ) (sensors : List String)
    (config : SensorOperationConfig) (data : ProcessedData) :
    (∃ e, e ≠ outOfBounds ∧
      calculate_new_sensor powf sensors config data = (data, Except.error e)) ∨
    (∃ f default_name,
      calculate_new_sensor powf sensors config data =
        finishCalc data config.custom_name default_name (appendColumn f data.rows) ∧
      (∀ r e, f r = Except.error e → e = outOfBounds) ∧
      (∀ r : CsvRecord, data.headers.length ≤ r.values.length → ∃ v, f r = Except.ok v)) := by
  unfold calculate_new_sensor
  split
  next hemp => exact Or.inl ⟨_, by decide, rfl⟩
  next hemp =>
    split
    next e herr =>
      obtain ⟨s, rfl⟩ := findSensorIndices_error herr
      exact Or.inl ⟨_, sensorNotFound_ne s, rfl⟩
    next indices hfind =>
      have hbound : ∀ i ∈ indices, i < data.headers.length := findSensorIndices_bounds hfind
      have hlen : indices.length = sensors.length := findSensorIndices_length hfind
      have hidxne : indices ≠ [] := by
        intro hnil
        rw [hnil] at hlen
        have : sensors = [] := List.eq_nil_of_length_eq_zero hlen.symm
        rw [this] at hemp
        simp at hemp
      split
      next hsingle =>
        split
        next => exact Or.inl ⟨_, by decide, rfl⟩
        next =>
          split
          next => exact Or.inl ⟨_, by decide, rfl⟩
          next op hop =>
            split
            next => exact Or.inl ⟨_, by decide, rfl⟩
            next op_symbol hsym =>
              refine Or.inr ⟨singleOpRow powf op (indices.headD 0), _, rfl, ?_, ?_⟩
              · intro r e he
                exact singleOpRow_error he
              · intro r hr
                have hmem : indices.headD 0 ∈ indices := by
                  cases indices with
                  | nil => exact absurd rfl hidxne
                  | cons i rest => exact List.mem_cons_self i rest
                exact singleOpRow_isOk (lt_of_lt_of_le (hbound _ hmem) hr)
      next hsingle =>
        split
        next hmulti =>
          split
          next => exact Or.inl ⟨_, by decide, rfl⟩
          next op hop =>
            split
            next => exact Or.inl ⟨_, by decide, rfl⟩
            next op_name hopn =>
              split
              next hsub =>
                split
                next => exact Or.inl ⟨_, by decide, rfl⟩
                next base hbase =>
                  refine Or.inr ⟨multiBaseRow op.op_type op.base_sensor (sensors.zip indices),
                    _, rfl, ?_, ?_⟩
                  · intro r e he
                    rw [hbase] at he
                    exact multiBaseRow_error he
                  · intro r hr
                    rw [hbase]
                    refine multiBaseRow_isOk ?_
                    intro p hp
                    have := (List.of_mem_zip hp).2
                    exact lt_of_lt_of_le (hbound _ this) hr
              next hsub =>
                refine Or.inr ⟨multiAggRow op.op_type indices, _, rfl, ?_, ?_⟩
                · intro r e he
                  exact multiAggRow_error he
                · intro r hr
                  refine multiAggRow_isOk ?_
                  intro i hi
                  exact lt_of_lt_of_le (hbound _ hi) hr
        next => exact Or.inl ⟨_, by decide, rfl⟩

/-! ## Length invariants (claim C1) -/

theorem read_csv_rows_length {parseF64 : String → Option ℚ} {headerFields : List String}
    {rawRecords : List (List String)} {d : ProcessedData}
    (h : read_csv parseF64 headerFields rawRecords = Except.ok d) :
    ∀ r ∈ d.rows, r.values.length = d.headers.length := by
  unfold read_csv at h
  split at h
  next hall =>
    simp only [Except.ok.injEq] at h
    subst h
    intro r hr
    simp only [List.mem_map] at hr
    obtain ⟨raw, hraw, rfl⟩ := hr
    have hlen := List.all_eq_true.mp hall raw hraw
    simp only [decide_eq_true_eq] at hlen
    simp [parseRecord, parseFields_length, hlen]
  next => exact absurd h (by simp)

theorem applyRowWrites_length (cm : List Nat) :
    ∀ (vs : List (Option ℚ)) (i : Nat) (e : Entry),
      (applyRowWrites cm i vs e).length = e.length
  | [], _, _ => rfl
  | v :: rest, i, e => by
    unfold applyRowWrites
    rw [applyRowWrites_length cm rest (i + 1)]
    split
    · split <;> simp
    · rfl

theorem mem_mapInsert {k : String} {v : Entry} :
    ∀ {m : List (String × Entry)} {p : String × Entry},
      p ∈ mapInsert k v m → p = (k, v) ∨ p ∈ m
  | [], p, h => by simpa [mapInsert] using h
  | (k', v') :: rest, p, h => by
    unfold mapInsert at h
    split at h
    · exact (List.mem_cons.mp h).imp id id
    · split at h
      · rcases List.mem_cons.mp h with h1 | h1
        · exact Or.inl h1
        · exact Or.inr (List.mem_cons_of_mem _ h1)
      · rcases List.mem_cons.mp h with h1 | h1
        · exact Or.inr (by simp [h1])
        · rcases mem_mapInsert h1 with h2 | h2
          · exact Or.inl h2
          · exact Or.inr (List.mem_cons_of_mem _ h2)

theorem mapLookup_mem {k : String} :
    ∀ {m : List (String × Entry)} {e : Entry}, mapLookup k m = some e → (k, e) ∈ m
  | [], e, h => by simp [mapLookup] at h
  | (k', v') :: rest, e, h => by
    unfold mapLookup at h
    split at h
    next heq =>
      simp only [Option.some.injEq] at h
      subst heq
      subst h
      exact List.mem_cons_self _ _
    next => exact List.mem_cons_of_mem _ (mapLookup_mem h)

theorem mergeRow_len {L : Nat} {cm : List Nat} {m : List (String × Entry)} {row : CsvRecord}
    (hm : ∀ p ∈ m, (p.2 : Entry).length = L) :
    ∀ p ∈ mergeRow L cm m row, (p.2 : Entry).length = L := by
  unfold mergeRow
  split
  · exact hm
  next ts hts =>
    intro p hp
    rcases mem_mapInsert hp with rfl | hp'
    · simp only
      rw [applyRowWrites_length]
      cases hlk : mapLookup ts m with
      | none => simp [hlk]
      | some e => simpa [hlk] using hm _ (mapLookup_mem hlk)
    · exact hm p hp'

theorem foldl_mergeRow_len {L : Nat} {cm : List Nat} :
    ∀ (rows : List CsvRecord) {m : List (String × Entry)},
      (∀ p ∈ m, (p.2 : Entry).length = L) →
      ∀ p ∈ rows.foldl (mergeRow L cm) m, (p.2 : Entry).length = L
  | [], _, hm => hm
  | r :: rest, m, hm => by
    simp only [List.foldl_cons]
    exact foldl_mergeRow_len rest (mergeRow_len hm)

theorem foldl_mergeDataset_len {gh : List String} :
    ∀ (dss : List ProcessedData) {m : List (String × Entry)},
      (∀ p ∈ m, (p.2 : Entry).length = gh.length) →
      ∀ p ∈ dss.foldl (mergeDataset gh) m, (p.2 : Entry).length = gh.length
  | [], _, hm => hm
  | ds :: rest, m, hm => by
    simp only [List.foldl_cons]
    refine foldl_mergeDataset_len rest ?_
    unfold mergeDataset
    exact foldl_mergeRow_len ds.rows hm

theorem read_merge_rows_length {datasets : List ProcessedData} {merged : ProcessedData}
    (h : read_merge_csvs datasets = Except.ok merged) :
    ∀ r ∈ merged.rows, r.values.length = merged.headers.length := by
  unfold read_merge_csvs at h
  split at h
  · exact absurd h (by simp)
  · simp only [Except.ok.injEq] at h
    subst h
    intro r hr
    simp only [List.mem_map] at hr
    obtain ⟨p, hp, rfl⟩ := hr
    exact foldl_mergeDataset_len datasets (by simp) p hp

/-- C1: every table produced by parsing or merging, and every table a
successful derivation produces from such a table, keeps each row's value
count equal to its header count.  The per-file part covers ragged input rows
vacuously: the csv reader rejects any record whose field count differs from
the header row's, so no per-file table arises from such input. -/
theorem tables_keep_row_width_eq_header_count :
    (∀ (parseF64 : String → Option ℚ) (headerFields : List String)
        (rawRecords : List (List String)) (d : ProcessedData),
      read_csv parseF64 headerFields rawRecords = Except.ok d →
      ∀ r ∈ d.rows, r.values.length = d.headers.length) ∧
    (∀ (datasets : List ProcessedData) (merged : ProcessedData),
      read_merge_csvs datasets = Except.ok merged →
      ∀ r ∈ merged.rows, r.values.length = merged.headers.length) ∧
    (∀ (powf : ℚ → ℚ → ℚ) (sensors : List String) (config : SensorOperationConfig)
        (data : ProcessedData),
      (∀ r ∈ data.rows, r.values.length = data.headers.length) →
      ∀ r ∈ (calculate_new_sensor powf sensors config data).1.rows,
        r.values.length = (calculate_new_sensor powf sensors config data).1.headers.length) := by
  refine ⟨fun _ _ _ _ h => read_csv_rows_length h,
          fun _ _ h => read_merge_rows_length h, ?_⟩
  intro powf sensors config data hb r hr
  rcases calc_structure powf sensors config data with ⟨e, _, hc⟩ | ⟨f, dn, hc, _, hok⟩
  · rw [hc] at hr ⊢
    exact hb r hr
  · have hall : ∀ r ∈ data.rows, ∃ v, f r = Except.ok v :=
      fun r hr => hok r (le_of_eq (hb r hr).symm)
    rw [hc, appendColumn_all_ok hall, finishCalc_none rfl] at hr ⊢
    simp only [List.mem_map] at hr
    obtain ⟨r0, hr0, rfl⟩ := hr
    simp [hb r0 hr0]

/-- C5: a derivation call that fails with anything other than the
out-of-bounds panic (in particular every configuration error: empty
selection, unknown sensor, invalid mode, invalid operation type, missing
singleOp/multiOp/base sub-configuration) leaves the table exactly as it was;
a successful call appends exactly one header and exactly one value to every
row, preserving each row's timestamp. -/
theorem calc_config_error_frame_and_success_append :
    (∀ (powf : ℚ → ℚ → ℚ) (sensors : List String) (config : SensorOperationConfig)
        (data : ProcessedData) (e : String),
      (calculate_new_sensor powf sensors config data).2 = Except.error e →
      e ≠ outOfBounds →
      (calculate_new_sensor powf sensors config data).1 = data) ∧
    (∀ (powf : ℚ → ℚ → ℚ) (sensors : List String) (config : SensorOperationConfig)
        (data : ProcessedData) (name : String),
      (calculate_new_sensor powf sensors config data).2 = Except.ok name →
      (calculate_new_sensor powf sensors config data).1.headers = data.headers ++ [name] ∧
      ∃ newVals : List (Option ℚ), newVals.length = data.rows.length ∧
        (calculate_new_sensor powf sensors config data).1.rows =
          (data.rows.zip newVals).map
            (fun p => { timestamp := p.1.timestamp, values := p.1.values ++ [p.2] })) := by
  constructor
  · intro powf sensors config data e h2 hne
    rcases calc_structure powf sensors config data with ⟨e', _, hc⟩ | ⟨f, dn, hc, honly, _⟩
    · rw [hc]
    · rw [hc] at h2
      cases hout : (appendColumn f data.rows).2 with
      | none => rw [finishCalc_none hout] at h2; exact absurd h2 (by simp)
      | some e' =>
        rw [finishCalc_some hout] at h2
        simp only [Except.error.injEq] at h2
        subst h2
        obtain ⟨r, _, hre⟩ := appendColumn_error hout
        exact absurd (honly r _ hre) hne
  · intro powf sensors config data name h2
    rcases calc_structure powf sensors config data with ⟨e', _, hc⟩ | ⟨f, dn, hc, _, _⟩
    · rw [hc] at h2
      exact absurd h2 (by simp)
    · rw [hc] at h2 ⊢
      cases hout : (appendColumn f data.rows).2 with
      | some e' => rw [finishCalc_some hout] at h2; exact absurd h2 (by simp)
      | none =>
        rw [finishCalc_none hout] at h2 ⊢
        simp only [Except.ok.injEq] at h2
        subst h2
        refine ⟨rfl, data.rows.map (fun r => okValue (f r)), by simp, ?_⟩
        simp only
        rw [appendColumn_none hout]
        have hz : data.rows.zip (data.rows.map (fun r => okValue (f r))) =
            data.rows.map (fun r => (r, okValue (f r))) := by
          have := List.zip_map' id (fun r => okValue (f r)) data.rows
          simpa using this
        rw [hz, List.map_map]
        rfl

/-- C10: under the precondition that every row has at least one value slot
per header (as merge establishes and successful derivations preserve), no
index access of the derivation loop is out of bounds: the call never ends
with the out-of-bounds panic. -/
theorem calc_never_out_of_bounds (powf : ℚ → ℚ → ℚ) (sensors : List String)
    (config : SensorOperationConfig) (data : ProcessedData)
    (hb : ∀ r ∈ data.rows, data.headers.length ≤ r.values.length) :
    (calculate_new_sensor powf sensors config data).2 ≠ Except.error outOfBounds := by
  rcases calc_structure powf sensors config data with ⟨e, hne, hc⟩ | ⟨f, dn, hc, _, hok⟩
  · rw [hc]
    simpa using hne
  · have hall : ∀ r ∈ data.rows, ∃ v, f r = Except.ok v := fun r hr => hok r (hb r hr)
    rw [hc, appendColumn_all_ok hall, finishCalc_none rfl]
    simp

/-! ## Per-row semantics of the derivation operations (claims C6, C7, C8) -/

/-- C8: per row of a single-operand derivation, a missing input yields a
missing output whatever the operator, and a divide whose literal operand is 0
yields a missing output whatever the input (never an infinity, never an
error). -/
theorem single_op_missing_and_div_zero (powf : ℚ → ℚ → ℚ) (op : SingleOperation)
    (idx : Nat) (row : CsvRecord) (hin : idx < row.values.length) :
    (row.values.getD idx none = none → singleOpRow powf op idx row = Except.ok none) ∧
    (op.op_type = "divide" → op.value = 0 → singleOpRow powf op idx row = Except.ok none) := by
  constructor
  · intro hmiss
    unfold singleOpRow
    rw [getValue_ok hin, hmiss]
  · intro hdiv hzero
    unfold singleOpRow
    rw [getValue_ok hin]
    cases hv : row.values.getD idx none with
    | none => rfl
    | some v => simp [hdiv, hzero]

/-- C8 witness: divide by the literal 0 on a present input, and a missing
input under the power operator. -/
theorem single_op_missing_and_div_zero_witness :
    singleOpRow (fun a _ => a) { op_type := "divide", value := 0 } 0
      { timestamp := none, values := [some 7] } = Except.ok none ∧
    singleOpRow (fun a _ => a) { op_type := "power", value := 3 } 0
      { timestamp := none, values := [none] } = Except.ok none :=
  ⟨(single_op_missing_and_div_zero (fun a _ => a) _ 0 _ (by decide)).2 rfl rfl,
   (single_op_missing_and_div_zero (fun a _ => a) _ 0 _ (by decide)).1 (by decide)⟩

theorem option_toList_getLast? (o : Option ℚ) : (o.toList).getLast? = o := by
  cases o <;> rfl

theorem getLast?_cons_or {α : Type} (a : α) (l : List α) :
    (a :: l).getLast? = l.getLast?.or (some a) := by
  rw [← List.singleton_append, List.getLast?_append]
  rfl

/-- Scanning a concatenation: the accumulator threads through. -/
theorem multiBaseScan_append {base : String} {row : CsvRecord} :
    ∀ {l1 l2 : List (String × Nat)} {acc a1 : BaseAcc},
      multiBaseScan base row l1 acc = Except.ok a1 →
      multiBaseScan base row (l1 ++ l2) acc = multiBaseScan base row l2 a1
  | [], l2, acc, a1, h => by
    simp only [multiBaseScan, Except.ok.injEq] at h
    subst h
    rfl
  | (name, idx) :: rest, l2, acc, a1, h => by
    cases hg : getValue row.values idx with
    | error e =>
      exfalso
      unfold multiBaseScan at h
      rw [hg] at h
      exact absurd h (by simp)
    | ok val =>
      unfold multiBaseScan at h
      rw [hg] at h
      dsimp only at h
      rw [List.cons_append]
      conv_lhs => rw [multiBaseScan]
      rw [hg]
      dsimp only
      exact multiBaseScan_append h

/-- Scanning pairs none of which carries the base sensor: the base value is
untouched, the others' sum and count accumulate the present values. -/
theorem multiBaseScan_no_base {base : String} {row : CsvRecord} :
    ∀ {pairs : List (String × Nat)} {acc : BaseAcc},
      (∀ p ∈ pairs, p.2 < row.values.length) →
      (∀ p ∈ pairs, p.1 ≠ base) →
      multiBaseScan base row pairs acc = Except.ok
        { base_val := acc.base_val
          others_sum := acc.others_sum +
            (pairs.filterMap (fun p => row.values.getD p.2 none)).sum
          count := acc.count +
            (pairs.filterMap (fun p => row.values.getD p.2 none)).length }
  | [], acc, _, _ => by simp [multiBaseScan]
  | (name, idx) :: rest, acc, hin, hnb => by
    unfold multiBaseScan
    rw [getValue_ok (hin _ (List.mem_cons_self _ _))]
    dsimp only
    have hrest : ∀ p ∈ rest, p.2 < row.values.length :=
      fun p hp => hin p (List.mem_cons_of_mem _ hp)
    have hnb' : ∀ p ∈ rest, p.1 ≠ base := fun p hp => hnb p (List.mem_cons_of_mem _ hp)
    have hn : name ≠ base := hnb _ (List.mem_cons_self _ _)
    cases hv : row.values.getD idx none with
    | none =>
      dsimp only
      rw [multiBaseScan_no_base hrest hnb', List.filterMap_cons, hv]
    | some v =>
      dsimp only
      rw [if_neg hn, multiBaseScan_no_base hrest hnb', List.filterMap_cons, hv]
      simp only [Except.ok.injEq, BaseAcc.mk.injEq, List.sum_cons, List.length_cons,
        true_and, and_true]
      refine ⟨by ring, by omega⟩

/-- C6: per row of a multi-operand subtract/divide with designated base
sensor `base` (occurring once among the selected pairs): a missing base value
gives a missing output regardless of the others; otherwise subtract gives
base minus the sum of the other sensors' present values, and divide gives
base over that sum, missing when the sum is 0. -/
theorem multi_base_subtract_divide_spec (base : String) (bidx : Nat)
    (pre post : List (String × Nat)) (row : CsvRecord)
    (hin : ∀ p ∈ pre ++ (base, bidx) :: post, p.2 < row.values.length)
    (hpre : ∀ p ∈ pre, p.1 ≠ base) (hpost : ∀ p ∈ post, p.1 ≠ base) :
    (multiBaseRow "subtract" (some base) (pre ++ (base, bidx) :: post) row =
      Except.ok ((row.values.getD bidx none).map
        (fun b => b - ((pre ++ post).filterMap (fun p => row.values.getD p.2 none)).sum))) ∧
    (multiBaseRow "divide" (some base) (pre ++ (base, bidx) :: post) row =
      Except.ok (match row.values.getD bidx none with
        | none => none
        | some b =>
          if ((pre ++ post).filterMap (fun p => row.values.getD p.2 none)).sum = 0 then none
          else some (b / ((pre ++ post).filterMap (fun p => row.values.getD p.2 none)).sum))) := by
  have hinpre : ∀ p ∈ pre, p.2 < row.values.length :=
    fun p hp => hin p (List.mem_append_left _ hp)
  have hinpost : ∀ p ∈ post, p.2 < row.values.length :=
    fun p hp => hin p (List.mem_append_right _ (List.mem_cons_of_mem _ hp))
  have hbidx : bidx < row.values.length :=
    hin (base, bidx) (List.mem_append_right _ (List.mem_cons_self _ _))
  have h1 := @multiBaseScan_no_base base row pre
    { base_val := none, others_sum := 0, count := 0 } hinpre hpre
  have hscan : multiBaseScan base row (pre ++ (base, bidx) :: post)
      { base_val := none, others_sum := 0, count := 0 } = Except.ok
      { base_val := row.values.getD bidx none
        others_sum := (0 + (pre.filterMap (fun p => row.values.getD p.2 none)).sum) +
          (post.filterMap (fun p => row.values.getD p.2 none)).sum
        count := (0 + (pre.filterMap (fun p => row.values.getD p.2 none)).length) +
          (post.filterMap (fun p => row.values.getD p.2 none)).length } := by
    rw [multiBaseScan_append h1]
    unfold multiBaseScan
    rw [getValue_ok hbidx]
    dsimp only
    cases hv : row.values.getD bidx none with
    | none =>
      dsimp only
      rw [multiBaseScan_no_base hinpost hpost]
    | some v =>
      dsimp only
      rw [if_pos rfl, multiBaseScan_no_base hinpost hpost]
  have hsum : (0 + (pre.filterMap (fun p => row.values.getD p.2 none)).sum) +
      (post.filterMap (fun p => row.values.getD p.2 none)).sum =
      ((pre ++ post).filterMap (fun p => row.values.getD p.2 none)).sum := by
    rw [List.filterMap_append, List.sum_append]
    ring
  constructor
  · unfold multiBaseRow
    dsimp only
    rw [hscan]
    dsimp only
    rw [← hsum]
    cases hv : row.values.getD bidx none with
    | none => rfl
    | some b =>
      dsimp only
      rw [if_pos rfl]
      rfl
  · unfold multiBaseRow
    dsimp only
    rw [hscan]
    dsimp only
    rw [← hsum]
    cases hv : row.values.getD bidx none with
    | none => rfl
    | some b =>
      dsimp only
      rw [if_neg (by decide : ¬("divide" : String) = "subtract")]
      by_cases hz : (0 + (pre.filterMap (fun p => row.values.getD p.2 none)).sum) +
          (post.filterMap (fun p => row.values.getD p.2 none)).sum = 0
      · simp [hz]
      · simp [hz]

/-- C6 witness: base `B` = 10 with others `C` = 3, `D` = 2 subtracts to 5;
with the base missing the output is missing although `C`, `D` are present. -/
theorem multi_base_subtract_divide_witness :
    multiBaseRow "subtract" (some "B") [("B", 0), ("C", 1), ("D", 2)]
      { timestamp := none, values := [some 10, some 3, some 2] } = Except.ok (some 5) ∧
    multiBaseRow "subtract" (some "B") [("B", 0), ("C", 1), ("D", 2)]
      { timestamp := none, values := [none, some 3, some 2] } = Except.ok none := by
  constructor
  · refine ((multi_base_subtract_divide_spec "B" 0 [] [("C", 1), ("D", 2)]
      { timestamp := none, values := [some 10, some 3, some 2] }
      (by decide) (by decide) (by decide)).1).trans ?_
    simp only [List.nil_append, List.filterMap_cons, List.filterMap_nil]
    norm_num [List.getD, List.sum_cons]
  · refine ((multi_base_subtract_divide_spec "B" 0 [] [("C", 1), ("D", 2)]
      { timestamp := none, values := [none, some 3, some 2] }
      (by decide) (by decide) (by decide)).1).trans ?_
    rfl

theorem collectValid_eq {row : CsvRecord} :
    ∀ {indices : List Nat}, (∀ i ∈ indices, i < row.values.length) →
      collectValid row indices =
        Except.ok (indices.filterMap (fun i => row.values.getD i none))
  | [], _ => rfl
  | idx :: rest, h => by
    unfold collectValid
    rw [getValue_ok (h idx (List.mem_cons_self _ _))]
    dsimp only
    rw [collectValid_eq (fun i hi => h i (List.mem_cons_of_mem _ hi))]
    dsimp only
    rw [List.filterMap_cons]
    cases hv : row.values.getD idx none with
    | none => rfl
    | some v => rfl

/-- C7: per row of a multi-operand sum/mean/median/product, the operation
applies exactly to the selected sensors' present values, in selection order;
a row where every selected sensor is missing yields a missing output; the
median sorts the present values ascending and averages the two middle values
when their count is even. -/
theorem multi_agg_present_subset_spec (indices : List Nat) (row : CsvRecord)
    (hin : ∀ i ∈ indices, i < row.values.length) :
    (∀ op_type : String, indices.filterMap (fun i => row.values.getD i none) = [] →
      multiAggRow op_type indices row = Except.ok none) ∧
    (multiAggRow "sum" indices row = Except.ok
      (if indices.filterMap (fun i => row.values.getD i none) = [] then none
       else some (indices.filterMap (fun i => row.values.getD i none)).sum)) ∧
    (multiAggRow "mean" indices row = Except.ok
      (if indices.filterMap (fun i => row.values.getD i none) = [] then none
       else some ((indices.filterMap (fun i => row.values.getD i none)).sum /
         ((indices.filterMap (fun i => row.values.getD i none)).length : ℚ)))) ∧
    (multiAggRow "product" indices row = Except.ok
      (if indices.filterMap (fun i => row.values.getD i none) = [] then none
       else some (indices.filterMap (fun i => row.values.getD i none)).prod)) ∧
    (multiAggRow "median" indices row = Except.ok
      (if indices.filterMap (fun i => row.values.getD i none) = [] then none
       else
        (let sorted := List.insertionSort (· ≤ ·)
           (indices.filterMap (fun i => row.values.getD i none))
         let mid := sorted.length / 2
         if sorted.length % 2 = 0 then some ((sorted.getD (mid - 1) 0 + sorted.getD mid 0) / 2)
         else some (sorted.getD mid 0)))) := by
  have hcv := collectValid_eq hin
  refine ⟨?_, ?_, ?_, ?_, ?_⟩
  · intro op_type h0
    unfold multiAggRow
    rw [hcv, h0]
    rfl
  all_goals
    unfold multiAggRow
    rw [hcv]
    dsimp only
    by_cases he : indices.filterMap (fun i => row.values.getD i none) = [] <;>
      simp [he]

/-- C7 witness: the claim's two median examples, `[1,2,3,4]` all present
giving `5/2`, and `[1, missing, 3]` giving `2`. -/
theorem multi_agg_median_witness :
    multiAggRow "median" [0, 1, 2, 3]
      { timestamp := none, values := [some 1, some 2, some 3, some 4] } =
        Except.ok (some (5 / 2)) ∧
    multiAggRow "median" [0, 1, 2]
      { timestamp := none, values := [some 1, none, some 3] } = Except.ok (some 2) := by
  constructor
  · refine ((multi_agg_present_subset_spec [0, 1, 2, 3] _ (by decide)).2.2.2.2).trans ?_
    norm_num [List.filterMap_cons, List.getD_cons_zero, List.getD_cons_succ,
      List.insertionSort, List.orderedInsert]
    intro h
    exact absurd h (by simp)
  · refine ((multi_agg_present_subset_spec [0, 1, 2] _ (by decide)).2.2.2.2).trans ?_
    norm_num [List.filterMap_cons, List.getD_cons_zero, List.getD_cons_succ,
      List.insertionSort, List.orderedInsert]
    intro h
    exact absurd h (by simp)

/-! ## Chunked projection (claim C3) -/

theorem chunksOf_nil {α : Type} (k : Nat) : chunksOf k ([] : List α) = [] := by
  rw [chunksOf]

theorem chunksOf_cons {α : Type} (k : Nat) (x : α) (xs : List α) :
    chunksOf k (x :: xs) = (x :: xs.take (k - 1)) :: chunksOf k (xs.drop (k - 1)) := by
  rw [chunksOf]

/-- Joining the chunks restores the list: every element exactly once, in
original order. -/
theorem chunksOf_flatten {α : Type} (k : Nat) :
    ∀ l : List α, (chunksOf k l).flatten = l
  | [] => by simp [chunksOf_nil]
  | x :: xs => by
    rw [chunksOf_cons]
    simp only [List.flatten_cons]
    rw [chunksOf_flatten k (xs.drop (k - 1))]
    rw [List.cons_append, List.take_append_drop]
termination_by l => l.length
decreasing_by
  simp only [List.length_cons, List.length_drop]
  omega

/-- Chunk sizes: every chunk is full except a final remainder. -/
theorem chunksOf_sizes {α : Type} (k : Nat) (hk : 0 < k) :
    ∀ (l : List α) (i : Nat), i < (chunksOf k l).length →
      ((chunksOf k l).getD i []).length = min k (l.length - k * i)
  | [], i, hi => by rw [chunksOf_nil] at hi; exact absurd hi (by simp)
  | x :: xs, 0, hi => by
    rw [chunksOf_cons, List.getD_cons_zero]
    simp only [List.length_cons, List.length_take]
    omega
  | x :: xs, i + 1, hi => by
    rw [chunksOf_cons, List.getD_cons_succ]
    rw [chunksOf_cons, List.length_cons] at hi
    have ih := chunksOf_sizes k hk (xs.drop (k - 1)) i (by omega)
    rw [ih, List.length_drop, List.length_cons]
    have : k * (i + 1) = k * i + k := by ring
    omega
termination_by l => l.length
decreasing_by
  simp only [List.length_cons, List.length_drop]
  omega

/-- The projected indices: the requested sensors found among the headers, in
requested order, each at its first exactly-matching position; absent names
are dropped. -/
theorem projIndices_filter (sensors headers : List String) :
    projIndices sensors headers =
      (sensors.filter (fun s => (headers.findIdx? (fun h => h = s)).isSome)).map
        (fun s => (headers.findIdx? (fun h => h = s)).getD 0) := by
  induction sensors with
  | nil => rfl
  | cons s rest ih =>
    unfold projIndices at ih ⊢
    rw [List.filterMap_cons, List.filter_cons]
    cases hf : headers.findIdx? (fun h => h = s) with
    | none => simp [hf, ih]
    | some j => simp [hf, ih]

/-- C3: the chunked projection emits, in order, the contiguous batches of
the projected rows - every batch full at `CHUNK_SIZE` rows except a final
remainder - followed by exactly one end-of-stream signal after the last
batch; joining the batches gives every row, projected, exactly once in
original order; each projected row keeps its timestamp and holds exactly the
requested columns found among the headers, in requested order. -/
theorem get_data_stream_spec (sensors : List String) (data : ProcessedData) :
    ∃ batches : List (List CsvRecord),
      get_data sensors data =
        batches.map (fun b => StreamEvent.chunk { headers := sensors, rows := b }) ++
          [StreamEvent.streamEnd] ∧
      batches.flatten = data.rows.map (projectRow (projIndices sensors data.headers)) ∧
      (∀ i, i < batches.length →
        (batches.getD i []).length = min CHUNK_SIZE (data.rows.length - CHUNK_SIZE * i)) ∧
      (∀ row, (projectRow (projIndices sensors data.headers) row).timestamp = row.timestamp) ∧
      (∀ row, (projectRow (projIndices sensors data.headers) row).values =
        ((sensors.filter (fun s => (data.headers.findIdx? (fun h => h = s)).isSome)).map
          (fun s => (data.headers.findIdx? (fun h => h = s)).getD 0)).map
          (fun idx => if idx < row.values.length then row.values.getD idx none else none)) := by
  refine ⟨(chunksOf CHUNK_SIZE data.rows).map
    (List.map (projectRow (projIndices sensors data.headers))), ?_, ?_, ?_, fun row => rfl, ?_⟩
  · unfold get_data
    rw [List.map_map]
    rfl
  · rw [← List.map_flatten, chunksOf_flatten]
  · intro i hi
    rw [List.length_map] at hi
    rw [show ([] : List CsvRecord) =
      List.map (projectRow (projIndices sensors data.headers)) [] from rfl]
    rw [List.getD_map, List.length_map]
    exact chunksOf_sizes CHUNK_SIZE (by decide) data.rows i hi
  · intro row
    show (projIndices sensors data.headers).map _ = _
    rw [projIndices_filter]

/-! ## The merge accumulator (claims C2, C9, C4) -/

theorem strLtB_irrefl : ∀ l : List Char, strLtB l l = false
  | [] => rfl
  | a :: as => by simp [strLtB, strLtB_irrefl as]

theorem strLtB_trans : ∀ (l1 l2 l3 : List Char),
    strLtB l1 l2 = true → strLtB l2 l3 = true → strLtB l1 l3 = true
  | [], [], _ => fun h _ => by simp [strLtB] at h
  | [], _ :: _, [] => fun _ h => by simp [strLtB] at h
  | [], _ :: _, _ :: _ => fun _ _ => rfl
  | _ :: _, [], _ => fun h _ => by simp [strLtB] at h
  | _ :: _, _ :: _, [] => fun _ h => by simp [strLtB] at h
  | a :: as, b :: bs, c :: cs => fun h1 h2 => by
    simp only [strLtB] at h1 h2 ⊢
    by_cases hab : a < b
    · by_cases hbc : b < c
      · simp [lt_trans hab hbc]
      · rw [if_neg hbc] at h2
        by_cases hcb : c < b
        · rw [if_pos hcb] at h2; exact absurd h2 (by simp)
        · have hbceq : b = c := le_antisymm (not_lt.mp hcb) (not_lt.mp hbc)
          subst hbceq
          simp [hab]
    · rw [if_neg hab] at h1
      by_cases hba : b < a
      · rw [if_pos hba] at h1; exact absurd h1 (by simp)
      · have habeq : a = b := le_antisymm (not_lt.mp hba) (not_lt.mp hab)
        subst habeq
        rw [if_neg hab] at h1
        by_cases hbc : a < c
        · simp [hbc]
        · rw [if_neg hbc] at h2
          by_cases hcb : c < a
          · rw [if_pos hcb] at h2; exact absurd h2 (by simp)
          · rw [if_neg hcb] at h2
            simp only [if_neg hbc, if_neg hcb]
            exact strLtB_trans as bs cs h1 h2

theorem strLtB_total : ∀ (l1 l2 : List Char), l1 ≠ l2 →
    strLtB l1 l2 = true ∨ strLtB l2 l1 = true
  | [], [] => fun h => absurd rfl h
  | [], _ :: _ => fun _ => Or.inl rfl
  | _ :: _, [] => fun _ => Or.inr rfl
  | a :: as, b :: bs => fun h => by
    rcases lt_trichotomy a b with hab | hab | hab
    · left; simp [strLtB, hab]
    · subst hab
      have hne : as ≠ bs := fun he => h (by rw [he])
      rcases strLtB_total as bs hne with h1 | h1
      · left; simp [strLtB, lt_irrefl, h1]
      · right; simp [strLtB, lt_irrefl, h1]
    · right; simp [strLtB, hab]

theorem strLt_irrefl (a : String) : strLt a a = false := strLtB_irrefl a.data

theorem strLt_trans {a b c : String} (h1 : strLt a b = true) (h2 : strLt b c = true) :
    strLt a c = true := strLtB_trans _ _ _ h1 h2

theorem strLt_total {a b : String} (h : a ≠ b) : strLt a b = true ∨ strLt b a = true :=
  strLtB_total _ _ (fun he => h (String.ext he))

theorem strLt_ne {a b : String} (h : strLt a b = true) : a ≠ b := by
  intro he
  subst he
  rw [strLt_irrefl] at h
  exact absurd h (by simp)

theorem getD_replicate_none (L g : Nat) :
    (List.replicate L (none : Option ℚ)).getD g none = none := by
  induction L generalizing g with
  | zero => rfl
  | succ n ih =>
    cases g with
    | zero => rfl
    | succ g' => simp [List.replicate, ih g']

theorem mapLookup_insert_self (k : String) (v : Entry) :
    ∀ m : List (String × Entry), mapLookup k (mapInsert k v m) = some v
  | [] => by simp [mapInsert, mapLookup]
  | (k', v') :: rest => by
    unfold mapInsert
    split
    · simp [mapLookup]
    · split
      · simp [mapLookup]
      next hne =>
        unfold mapLookup
        rw [if_neg hne]
        exact mapLookup_insert_self k v rest

theorem mapLookup_insert_ne {k' k : String} (hne : k' ≠ k) (v : Entry) :
    ∀ m : List (String × Entry), mapLookup k' (mapInsert k v m) = mapLookup k' m
  | [] => by simp [mapInsert, mapLookup, hne]
  | (k1, v1) :: rest => by
    unfold mapInsert
    split
    · simp [mapLookup, hne]
    · split
      next heq =>
        subst heq
        simp [mapLookup, hne]
      next =>
        by_cases h1 : k' = k1
        · simp [mapLookup, h1]
        · simp [mapLookup, h1, mapLookup_insert_ne hne v rest]

theorem mem_mapKeys_insert_iff {k a : String} {v : Entry} :
    ∀ m : List (String × Entry), a ∈ mapKeys (mapInsert k v m) ↔ a = k ∨ a ∈ mapKeys m
  | [] => by simp [mapInsert, mapKeys]
  | (k1, v1) :: rest => by
    unfold mapInsert
    split
    · simp [mapKeys]
    · split
      next heq =>
        subst heq
        simp [mapKeys]
      next =>
        simp only [mapKeys, List.map_cons, List.mem_cons]
        constructor
        · rintro (h1 | h1)
          · exact Or.inr (Or.inl h1)
          · rcases (mem_mapKeys_insert_iff rest).mp h1 with h2 | h2
            · exact Or.inl h2
            · exact Or.inr (Or.inr h2)
        · rintro (h1 | h1 | h1)
          · exact Or.inr ((mem_mapKeys_insert_iff rest).mpr (Or.inl h1))
          · exact Or.inl h1
          · exact Or.inr ((mem_mapKeys_insert_iff rest).mpr (Or.inr h1))

theorem keysSorted_insert {k : String} {v : Entry} :
    ∀ {m : List (String × Entry)}, keysSorted m → keysSorted (mapInsert k v m)
  | [], _ => by simp [mapInsert, keysSorted, StrAsc, mapKeys]
  | (k1, v1) :: rest, hs => by
    have hs' := hs
    unfold keysSorted StrAsc mapKeys at hs'
    rw [List.map_cons, List.pairwise_cons] at hs'
    obtain ⟨hhead, htail⟩ := hs'
    unfold mapInsert
    split
    next hlt =>
      unfold keysSorted StrAsc mapKeys
      rw [List.map_cons, List.pairwise_cons]
      refine ⟨?_, hs⟩
      intro a ha
      rw [List.map_cons, List.mem_cons] at ha
      rcases ha with rfl | ha
      · exact hlt
      · exact strLt_trans hlt (hhead a ha)
    next hlt =>
      split
      next heq =>
        subst heq
        unfold keysSorted StrAsc mapKeys
        rw [List.map_cons, List.pairwise_cons]
        exact ⟨hhead, htail⟩
      next hne =>
        have hk1k : strLt k1 k = true := by
          rcases strLt_total (fun he => hne he.symm) with h1 | h1
          · exact h1
          · exact absurd h1 hlt
        unfold keysSorted StrAsc mapKeys
        rw [List.map_cons, List.pairwise_cons]
        constructor
        · intro a ha
          rcases (mem_mapKeys_insert_iff rest).mp ha with rfl | ha'
          · exact hk1k
          · exact hhead a ha'
        · exact keysSorted_insert htail

theorem mapLookup_none_of_forall {k : String} :
    ∀ {m : List (String × Entry)}, (∀ a ∈ mapKeys m, a ≠ k) → mapLookup k m = none
  | [], _ => rfl
  | (k1, v1) :: rest, h => by
    unfold mapLookup
    rw [if_neg (fun he => h k1 (by simp [mapKeys]) he.symm)]
    exact mapLookup_none_of_forall (fun a ha => h a (by simp [mapKeys] at ha ⊢; exact Or.inr ha))

theorem mapLookup_of_mem_sorted {k : String} {e : Entry} :
    ∀ {m : List (String × Entry)}, keysSorted m → (k, e) ∈ m → mapLookup k m = some e
  | [], _, hm => absurd hm (by simp)
  | (k1, v1) :: rest, hs, hm => by
    have hs' := hs
    unfold keysSorted StrAsc mapKeys at hs'
    rw [List.map_cons, List.pairwise_cons] at hs'
    obtain ⟨hhead, htail⟩ := hs'
    rcases List.mem_cons.mp hm with heq | hm'
    · rw [Prod.mk.injEq] at heq
      unfold mapLookup
      rw [if_pos heq.1]
      rw [heq.2]
    · have hkmem : k ∈ mapKeys rest := by
        unfold mapKeys
        exact List.mem_map.mpr ⟨(k, e), hm', rfl⟩
      have hne : k ≠ k1 := fun he => strLt_ne (hhead k hkmem) (by rw [he])
      unfold mapLookup
      rw [if_neg hne]
      exact mapLookup_of_mem_sorted htail hm'

/-- The pointwise effect of one row's writes on an entry: at each column the
last write of the row wins, and an unwritten column keeps its old value. -/
theorem applyRowWrites_getD (cm : List Nat) :
    ∀ (vs : List (Option ℚ)) (i : Nat) (e : Entry) (g : Nat), g < e.length →
      (applyRowWrites cm i vs e).getD g none =
        ((rowWritesAt cm g i vs).getLast?).or (e.getD g none)
  | [], i, e, g, hg => by simp [applyRowWrites, rowWritesAt]
  | v :: rest, i, e, g, hg => by
    unfold applyRowWrites rowWritesAt
    rw [List.getLast?_append, Option.or_assoc]
    have hlen : (if i < cm.length then
        (match v with
         | some x => e.set (cm.getD i 0) (some x)
         | none => e)
      else e).length = e.length := by
      split
      · split <;> simp
      · rfl
    rw [applyRowWrites_getD cm rest (i + 1) _ g (by rw [hlen]; exact hg)]
    congr 1
    by_cases hic : i < cm.length
    · rw [if_pos hic]
      cases v with
      | none => simp [hic]
      | some x =>
        by_cases hgi : cm.getD i 0 = g
        · rw [hgi]
          simp only [hic, hgi, true_and, if_pos rfl]
          rw [List.getD_eq_getElem?_getD, List.getElem?_set]
          simp [hg]
        · simp only [hic, hgi, true_and, and_false, if_false]
          rw [List.getD_eq_getElem?_getD, List.getElem?_set]
          rw [if_neg hgi]
          rw [← List.getD_eq_getElem?_getD]
          simp
    · rw [if_neg hic]
      simp [hic]

/-- One merge step keeps the accumulator invariant, extending the write lists
by the folded row's writes. -/
theorem mergeRow_inv {L : Nat} {cm : List Nat} {W : String → Nat → List ℚ}
    {m : List (String × Entry)} (hinv : MergeInv L W m) (row : CsvRecord) :
    MergeInv L
      (fun ts g => W ts g ++
        (if row.timestamp = some ts then rowWritesAt cm g 0 row.values else []))
      (mergeRow L cm m row) := by
  obtain ⟨hinv1, hinv2⟩ := hinv
  unfold mergeRow
  cases hts : row.timestamp with
  | none =>
    dsimp only
    refine ⟨fun ts hl g => ?_, fun ts e hl => ?_⟩
    · simp [hinv1 ts hl g]
    · refine ⟨(hinv2 ts e hl).1, fun g hg => ?_⟩
      have h2 := (hinv2 ts e hl).2 g hg
      rw [List.getD_eq_getElem?_getD] at h2
      simp [h2]
  | some t =>
    have he0len : ((mapLookup t m).getD (List.replicate L none)).length = L := by
      cases hlk : mapLookup t m with
      | none => simp
      | some e1 => simpa using (hinv2 t e1 hlk).1
    have he0get : ∀ g, g < L →
        ((mapLookup t m).getD (List.replicate L none)).getD g none = (W t g).getLast? := by
      intro g hg
      cases hlk : mapLookup t m with
      | none =>
        simp only [Option.getD_none]
        rw [getD_replicate_none, hinv1 t hlk g]
        rfl
      | some e1 =>
        simp only [Option.getD_some]
        exact (hinv2 t e1 hlk).2 g hg
    dsimp only
    constructor
    · intro ts hl g
      by_cases hteq : ts = t
      · subst hteq
        rw [mapLookup_insert_self] at hl
        exact absurd hl (by simp)
      · rw [mapLookup_insert_ne hteq _ m] at hl
        have hcond : ¬ (some t = some ts) := by
          intro he
          exact hteq (by injection he with h2; exact h2.symm)
        simp [hcond, hinv1 ts hl g]
    · intro ts e hl
      by_cases hteq : ts = t
      · subst hteq
        rw [mapLookup_insert_self] at hl
        have he : applyRowWrites cm 0 row.values
            ((mapLookup ts m).getD (List.replicate L none)) = e := by
          injection hl
        subst he
        refine ⟨by rw [applyRowWrites_length, he0len], fun g hg => ?_⟩
        rw [applyRowWrites_getD cm row.values 0 _ g (by rw [he0len]; exact hg)]
        rw [he0get g hg]
        simp [List.getLast?_append]
      · rw [mapLookup_insert_ne hteq _ m] at hl
        have hcond : ¬ (some t = some ts) := by
          intro he
          exact hteq (by injection he with h2; exact h2.symm)
        refine ⟨(hinv2 ts e hl).1, fun g hg => ?_⟩
        have h2 := (hinv2 ts e hl).2 g hg
        rw [List.getD_eq_getElem?_getD] at h2
        simp [hcond, h2]

theorem keysSorted_mergeRow {L : Nat} {cm : List Nat} {m : List (String × Entry)}
    (hs : keysSorted m) (row : CsvRecord) : keysSorted (mergeRow L cm m row) := by
  unfold mergeRow
  cases row.timestamp with
  | none => exact hs
  | some t => exact keysSorted_insert hs

theorem rowsWritesAt_cons (cm : List Nat) (r : CsvRecord) (rest : List CsvRecord)
    (ts : String) (g : Nat) :
    rowsWritesAt cm (r :: rest) ts g =
      (if r.timestamp = some ts then rowWritesAt cm g 0 r.values else []) ++
        rowsWritesAt cm rest ts g := by
  unfold rowsWritesAt
  rw [List.filter_cons]
  by_cases ht : r.timestamp = some ts
  · simp [ht, List.flatMap_cons]
  · simp [ht]

theorem MergeInv_congr {L : Nat} {W W' : String → Nat → List ℚ} {m : List (String × Entry)}
    (h : ∀ ts g, W ts g = W' ts g) (hi : MergeInv L W m) : MergeInv L W' m := by
  obtain ⟨h1, h2⟩ := hi
  refine ⟨fun ts hl g => ?_, fun ts e hl => ⟨(h2 ts e hl).1, fun g hg => ?_⟩⟩
  · rw [← h ts g]
    exact h1 ts hl g
  · rw [← h ts g]
    exact (h2 ts e hl).2 g hg

theorem foldl_mergeRow_inv {L : Nat} {cm : List Nat} :
    ∀ (rows : List CsvRecord) {m : List (String × Entry)} {W : String → Nat → List ℚ},
      keysSorted m → MergeInv L W m →
      keysSorted (rows.foldl (mergeRow L cm) m) ∧
      MergeInv L (fun ts g => W ts g ++ rowsWritesAt cm rows ts g)
        (rows.foldl (mergeRow L cm) m)
  | [], m, W, hs, hi => by
    refine ⟨hs, MergeInv_congr (fun ts g => ?_) hi⟩
    simp [rowsWritesAt]
  | r :: rest, m, W, hs, hi => by
    simp only [List.foldl_cons]
    obtain ⟨hs2, hi2⟩ := foldl_mergeRow_inv rest (keysSorted_mergeRow hs r) (mergeRow_inv hi r)
    refine ⟨hs2, MergeInv_congr (fun ts g => ?_) hi2⟩
    rw [rowsWritesAt_cons]
    exact List.append_assoc _ _ _

theorem allWritesAt_cons (gh : List String) (ds : ProcessedData) (rest : List ProcessedData)
    (ts : String) (g : Nat) :
    allWritesAt gh (ds :: rest) ts g =
      rowsWritesAt (buildColMap gh ds.headers) ds.rows ts g ++ allWritesAt gh rest ts g := by
  simp [allWritesAt, datasetWritesAt, List.flatMap_cons]

theorem foldl_mergeDataset_inv {gh : List String} :
    ∀ (dss : List ProcessedData) {m : List (String × Entry)} {W : String → Nat → List ℚ},
      keysSorted m → MergeInv gh.length W m →
      keysSorted (dss.foldl (mergeDataset gh) m) ∧
      MergeInv gh.length (fun ts g => W ts g ++ allWritesAt gh dss ts g)
        (dss.foldl (mergeDataset gh) m)
  | [], m, W, hs, hi => by
    refine ⟨hs, MergeInv_congr (fun ts g => ?_) hi⟩
    simp [allWritesAt]
  | ds :: rest, m, W, hs, hi => by
    simp only [List.foldl_cons]
    obtain ⟨hs1, hi1⟩ :=
      @foldl_mergeRow_inv gh.length (buildColMap gh ds.headers) ds.rows m W hs hi
    obtain ⟨hs2, hi2⟩ := foldl_mergeDataset_inv rest hs1 hi1
    refine ⟨hs2, MergeInv_congr (fun ts g => ?_) hi2⟩
    rw [allWritesAt_cons]
    exact List.append_assoc _ _ _

/-- C2: in the merged table, the cell of merged row `r` (whose timestamp is
`ts`) at global column `g` holds exactly the LAST present value written to
that cell, across all files in caller-supplied order and all their rows with
that timestamp — so a missing local value never overwrites a present one
(only present values enter the write list), and when several files supply a
present value for the same cell the later-processed file wins, per cell. -/
theorem merge_cell_last_present_write {datasets : List ProcessedData}
    {merged : ProcessedData} (h : read_merge_csvs datasets = Except.ok merged)
    {r : CsvRecord} (hr : r ∈ merged.rows) {ts : String} (hts : r.timestamp = some ts)
    {g : Nat} (hg : g < merged.headers.length) :
    r.values.getD g none = (allWritesAt merged.headers datasets ts g).getLast? := by
  unfold read_merge_csvs at h
  split at h
  · exact absurd h (by simp)
  · simp only [Except.ok.injEq] at h
    subst h
    simp only [List.mem_map] at hr
    obtain ⟨p, hp, rfl⟩ := hr
    simp only [Option.some.injEq] at hts
    have hbase : MergeInv
        (globalHeadersFold datasets (canonicalTsHeader datasets)).length
        (fun _ _ => []) [] :=
      ⟨fun _ _ _ => rfl, fun ts e hl => by simp [mapLookup] at hl⟩
    obtain ⟨hs, hi⟩ := foldl_mergeDataset_inv datasets (show keysSorted [] from List.Pairwise.nil) hbase
    have hlk : mapLookup p.1
        (datasets.foldl (mergeDataset (globalHeadersFold datasets (canonicalTsHeader datasets))) []) =
        some p.2 :=
      mapLookup_of_mem_sorted hs (by simpa using hp)
    have := (hi.2 p.1 p.2 hlk).2 g (by simpa using hg)
    rw [hts] at this
    simpa using this

/-- C2 witness: in the two-file example both files supply a present value
for cell (`t1`, column `B`); the merged cell holds the later file's value. -/
theorem merge_cell_last_present_write_witness :
    (({ timestamp := some "t1", values := [none, some 1, some 20, some 5] } : CsvRecord).values.getD
        2 none =
      (allWritesAt exMerged.headers [exD1, exD2] "t1" 2).getLast?) ∧
    (allWritesAt exMerged.headers [exD1, exD2] "t1" 2).getLast? = some 20 :=
  ⟨merge_cell_last_present_write (by decide) (by decide) (by decide) (by decide), by decide⟩

theorem mem_mapKeys_mergeRow {L : Nat} {cm : List Nat} {m : List (String × Entry)}
    (row : CsvRecord) (a : String) :
    a ∈ mapKeys (mergeRow L cm m row) ↔ a ∈ mapKeys m ∨ row.timestamp = some a := by
  unfold mergeRow
  cases hts : row.timestamp with
  | none => simp
  | some t =>
    rw [mem_mapKeys_insert_iff]
    constructor
    · rintro (rfl | h1)
      · exact Or.inr rfl
      · exact Or.inl h1
    · rintro (h1 | h1)
      · exact Or.inr h1
      · exact Or.inl (by injection h1 with h2; exact h2.symm)

theorem mem_mapKeys_foldl_mergeRow {L : Nat} {cm : List Nat} :
    ∀ (rows : List CsvRecord) (m : List (String × Entry)) (a : String),
      a ∈ mapKeys (rows.foldl (mergeRow L cm) m) ↔
        a ∈ mapKeys m ∨ ∃ r ∈ rows, r.timestamp = some a
  | [], m, a => by simp
  | r :: rest, m, a => by
    simp only [List.foldl_cons]
    rw [mem_mapKeys_foldl_mergeRow rest, mem_mapKeys_mergeRow]
    constructor
    · rintro ((h1 | h1) | h1)
      · exact Or.inl h1
      · exact Or.inr ⟨r, List.mem_cons_self _ _, h1⟩
      · obtain ⟨r', hr', h2⟩ := h1
        exact Or.inr ⟨r', List.mem_cons_of_mem _ hr', h2⟩
    · rintro (h1 | ⟨r', hr', h2⟩)
      · exact Or.inl (Or.inl h1)
      · rcases List.mem_cons.mp hr' with rfl | hr2
        · exact Or.inl (Or.inr h2)
        · exact Or.inr ⟨r', hr2, h2⟩

theorem mem_mapKeys_foldl_mergeDataset {gh : List String} :
    ∀ (dss : List ProcessedData) (m : List (String × Entry)) (a : String),
      a ∈ mapKeys (dss.foldl (mergeDataset gh) m) ↔
        a ∈ mapKeys m ∨ ∃ ds ∈ dss, ∃ r ∈ ds.rows, r.timestamp = some a
  | [], m, a => by simp
  | ds :: rest, m, a => by
    simp only [List.foldl_cons]
    rw [mem_mapKeys_foldl_mergeDataset rest]
    unfold mergeDataset
    rw [mem_mapKeys_foldl_mergeRow]
    constructor
    · rintro ((h1 | h1) | h1)
      · exact Or.inl h1
      · exact Or.inr ⟨ds, List.mem_cons_self _ _, h1⟩
      · obtain ⟨ds', hds', h2⟩ := h1
        exact Or.inr ⟨ds', List.mem_cons_of_mem _ hds', h2⟩
    · rintro (h1 | ⟨ds', hds', h2⟩)
      · exact Or.inl (Or.inl h1)
      · rcases List.mem_cons.mp hds' with rfl | hds2
        · exact Or.inl (Or.inr h2)
        · exact Or.inr ⟨ds', hds2, h2⟩

/-- C9: every merged row carries a present timestamp; the merged rows'
timestamps ascend strictly in the byte-wise string order (hence are
pairwise distinct, one merged row per distinct timestamp); and a timestamp
has a merged row exactly when some source row carries it. -/
theorem merge_rows_sorted_unique {datasets : List ProcessedData} {merged : ProcessedData}
    (h : read_merge_csvs datasets = Except.ok merged) :
    (∀ r ∈ merged.rows, ∃ ts, r.timestamp = some ts) ∧
    StrAsc (merged.rows.filterMap CsvRecord.timestamp) ∧
    (merged.rows.filterMap CsvRecord.timestamp).Nodup ∧
    (∀ ts : String, (∃ r ∈ merged.rows, r.timestamp = some ts) ↔
      (∃ ds ∈ datasets, ∃ row ∈ ds.rows, row.timestamp = some ts)) := by
  unfold read_merge_csvs at h
  split at h
  · exact absurd h (by simp)
  · simp only [Except.ok.injEq] at h
    subst h
    have hbase : MergeInv
        (globalHeadersFold datasets (canonicalTsHeader datasets)).length
        (fun _ _ => []) [] :=
      ⟨fun _ _ _ => rfl, fun ts e hl => by simp [mapLookup] at hl⟩
    obtain ⟨hs, _⟩ :=
      foldl_mergeDataset_inv datasets (show keysSorted [] from List.Pairwise.nil) hbase
    have hmap : ∀ mf : List (String × Entry),
        (mf.map (fun p => ({ timestamp := some p.1, values := p.2 } : CsvRecord))).filterMap
          CsvRecord.timestamp = mapKeys mf := by
      intro mf
      induction mf with
      | nil => rfl
      | cons p rest ih => simp [List.filterMap_cons, ih, mapKeys]
    refine ⟨?_, ?_, ?_, ?_⟩
    · intro r hr
      simp only [List.mem_map] at hr
      obtain ⟨p, hp, rfl⟩ := hr
      exact ⟨p.1, rfl⟩
    · rw [hmap]
      exact hs
    · rw [hmap]
      exact hs.imp fun hab => strLt_ne hab
    · intro ts
      constructor
      · rintro ⟨r, hr, hts⟩
        simp only [List.mem_map] at hr
        obtain ⟨p, hp, rfl⟩ := hr
        simp only [Option.some.injEq] at hts
        subst hts
        have hmem : p.1 ∈ mapKeys
            (datasets.foldl
              (mergeDataset (globalHeadersFold datasets (canonicalTsHeader datasets))) []) :=
          List.mem_map.mpr ⟨p, hp, rfl⟩
        have := (mem_mapKeys_foldl_mergeDataset datasets [] p.1).mp hmem
        simpa using this
      · intro hsrc
        have hmem : ts ∈ mapKeys
            (datasets.foldl
              (mergeDataset (globalHeadersFold datasets (canonicalTsHeader datasets))) []) :=
          (mem_mapKeys_foldl_mergeDataset datasets [] ts).mpr (Or.inr hsrc)
        obtain ⟨p, hp, hfst⟩ := List.mem_map.mp hmem
        exact ⟨{ timestamp := some p.1, values := p.2 },
          List.mem_map.mpr ⟨p, hp, rfl⟩, by rw [hfst]⟩

/-- C9 witness: the two-file example, timestamps `t1 < t2`, one merged row
each, carried exactly by the source timestamps. -/
theorem merge_rows_sorted_unique_witness :
    (∀ r ∈ exMerged.rows, ∃ ts, r.timestamp = some ts) ∧
    StrAsc (exMerged.rows.filterMap CsvRecord.timestamp) ∧
    (exMerged.rows.filterMap CsvRecord.timestamp).Nodup ∧
    (∀ ts : String, (∃ r ∈ exMerged.rows, r.timestamp = some ts) ↔
      (∃ ds ∈ [exD1, exD2], ∃ row ∈ ds.rows, row.timestamp = some ts)) :=
  merge_rows_sorted_unique (by decide)

/-! ## Merging a single file (claim C4) -/

theorem findIdx?_succ_start {α : Type} (p : α → Bool) :
    ∀ (l : List α) (s : Nat),
      List.findIdx? p l (s + 1) = (List.findIdx? p l s).map (· + 1)
  | [], s => rfl
  | x :: xs, s => by
    rw [List.findIdx?_cons, List.findIdx?_cons]
    by_cases hp : p x
    · simp [hp]
    · simp only [hp, Bool.false_eq_true, if_false]
      exact findIdx?_succ_start p xs (s + 1)

theorem find?_of_findIdx? {α : Type} (p : α → Bool) (d : α) :
    ∀ (l : List α) (k : Nat), List.findIdx? p l = some k → l.find? p = some (l.getD k d)
  | [], k, h => by simp [List.findIdx?] at h
  | x :: xs, k, h => by
    rw [List.findIdx?_cons] at h
    by_cases hp : p x
    · rw [if_pos hp] at h
      simp only [Option.some.injEq] at h
      subst h
      simp [List.find?_cons, hp]
    · rw [if_neg hp] at h
      rw [show (0 : Nat) + 1 = 0 + 1 from rfl, findIdx?_succ_start] at h
      cases hx : List.findIdx? p xs 0 with
      | none => rw [hx] at h; exact absurd h (by simp)
      | some k' =>
        rw [hx] at h
        simp only [Option.map_some', Option.some.injEq] at h
        subst h
        have hpf : p x = false := by simpa using hp
        rw [List.find?_cons_of_neg _ (by simp [hpf]), List.getD_cons_succ]
        exact find?_of_findIdx? p d xs k' hx

theorem getD_eraseIdx {α : Type} (hs : List α) (d : α) (k j : Nat) :
    (hs.eraseIdx k).getD j d = hs.getD (if j < k then j else j + 1) d := by
  rw [List.getD_eq_getElem?_getD, List.getElem?_eraseIdx]
  by_cases h : j < k
  · rw [if_pos h, if_pos h, ← List.getD_eq_getElem?_getD]
  · rw [if_neg h, if_neg h, ← List.getD_eq_getElem?_getD]

theorem getD_map_str (f : String → Nat) (hs : List String) (i : Nat) (hi : i < hs.length) :
    (hs.map f).getD i 0 = f (hs.getD i "") := by
  rw [List.getD_eq_getElem _ _ (by simpa using hi), List.getElem_map,
    List.getD_eq_getElem _ _ hi]

theorem isTimestampHeader_congr {a b : String} (h : asciiLower a = asciiLower b) :
    isTimestampHeader a = isTimestampHeader b := by
  simp [isTimestampHeader, eqIgnoreAsciiCase, h]

theorem eqIgnoreAsciiCase_refl (a : String) : eqIgnoreAsciiCase a a = true := by
  simp [eqIgnoreAsciiCase]

/-- The header-union fold over headers whose lowercased names are fresh for
the seen-set and pairwise distinct: it appends the non-timestamp headers in
order. -/
theorem foldl_addHeader_fresh :
    ∀ (hs : List String) (g seen : List String),
      (∀ h ∈ hs, isTimestampHeader h = false → rustLowercase h ∉ seen) →
      ((hs.filter (fun h => !isTimestampHeader h)).map rustLowercase).Nodup →
      hs.foldl addHeader (g, seen) =
        (g ++ hs.filter (fun h => !isTimestampHeader h),
         seen ++ (hs.filter (fun h => !isTimestampHeader h)).map rustLowercase)
  | [], g, seen, _, _ => by simp
  | h :: rest, g, seen, hfresh, hnd => by
    simp only [List.foldl_cons]
    by_cases hts : isTimestampHeader h
    · rw [show addHeader (g, seen) h = (g, seen) from by simp [addHeader, hts]]
      rw [foldl_addHeader_fresh rest g seen
        (fun x hx hxts => hfresh x (List.mem_cons_of_mem _ hx) hxts)
        (by simpa [List.filter_cons, hts] using hnd)]
      simp [List.filter_cons, hts]
    · have htsf : isTimestampHeader h = false := by simpa using hts
      have hnotin : rustLowercase h ∉ seen := hfresh h (List.mem_cons_self _ _) htsf
      have hcontains : seen.contains (rustLowercase h) = false := by
        rw [Bool.eq_false_iff]
        intro hc
        exact hnotin (List.elem_iff.mp hc)
      rw [show addHeader (g, seen) h = (g ++ [h], seen ++ [rustLowercase h]) from by
        simp [addHeader, hts, hcontains, hnotin]]
      have hfc : (h :: rest).filter (fun h => !isTimestampHeader h) =
          h :: rest.filter (fun h => !isTimestampHeader h) := by
        simp [List.filter_cons, htsf]
      rw [hfc] at hnd
      simp only [List.map_cons, List.nodup_cons] at hnd
      rw [foldl_addHeader_fresh rest (g ++ [h]) (seen ++ [rustLowercase h])
        (fun x hx hxts => by
          intro hmem
          rcases List.mem_append.mp hmem with hmem1 | hmem1
          · exact hfresh x (List.mem_cons_of_mem _ hx) hxts hmem1
          · have hxl : rustLowercase x = rustLowercase h := by simpa using hmem1
            exact hnd.1 (hxl ▸ List.mem_map_of_mem rustLowercase
              (List.mem_filter.mpr ⟨hx, by simp [hxts]⟩)))
        hnd.2]
      rw [hfc]
      simp [List.append_assoc]

/-- The global headers of a one-file merge with case-insensitively distinct
headers: the canonical timestamp followed by the non-timestamp headers. -/
theorem globalHeaders_single (d : ProcessedData) (canonical : String)
    (hcts : isTimestampHeader canonical = true)
    (hnd : (d.headers.map asciiLower).Nodup) :
    globalHeadersFold [d] canonical =
      canonical :: d.headers.filter (fun h => !isTimestampHeader h) := by
  unfold globalHeadersFold
  simp only [List.foldl_cons, List.foldl_nil]
  rw [foldl_addHeader_fresh d.headers [canonical] [rustLowercase canonical] ?_ ?_]
  · simp
  · intro h hh hhts
    intro hmem
    have hlow : rustLowercase h = rustLowercase canonical := by simpa using hmem
    have := isTimestampHeader_congr (a := h) (b := canonical) hlow
    rw [this, hcts] at hhts
    exact absurd hhts (by simp)
  · exact List.Nodup.sublist
      (List.Sublist.map asciiLower (List.filter_sublist d.headers)) hnd

theorem filter_not_ts_eq_eraseIdx :
    ∀ (hs : List String) (k : Nat),
      List.findIdx? (fun h => isTimestampHeader h) hs = some k →
      (∀ i, i < hs.length → isTimestampHeader (hs.getD i "") = true → i = k) →
      hs.filter (fun h => !isTimestampHeader h) = hs.eraseIdx k
  | [], k, h, _ => by simp [List.findIdx?] at h
  | x :: rest, k, h, huniq => by
    rw [List.findIdx?_cons] at h
    by_cases hx : isTimestampHeader x = true
    · rw [if_pos hx] at h
      simp only [Option.some.injEq] at h
      subst h
      show (x :: rest).filter (fun h => !isTimestampHeader h) = rest
      rw [List.filter_cons]
      simp only [hx, Bool.not_true, Bool.false_eq_true, if_false]
      rw [List.filter_eq_self.mpr ?_]
      intro a ha
      obtain ⟨i, hi, rfl⟩ := List.mem_iff_getElem.mp ha
      have hgd : rest[i] = rest.getD i "" := (List.getD_eq_getElem rest "" hi).symm
      rw [hgd]
      by_contra hc
      have h2 : isTimestampHeader ((x :: rest).getD (i + 1) "") = true := by
        rw [List.getD_cons_succ]
        simpa using hc
      have := huniq (i + 1) (by simp only [List.length_cons]; omega) h2
      omega
    · rw [if_neg hx] at h
      rw [show (0 : Nat) + 1 = 0 + 1 from rfl, findIdx?_succ_start] at h
      cases hr : List.findIdx? (fun h => isTimestampHeader h) rest 0 with
      | none => rw [hr] at h; exact absurd h (by simp)
      | some k' =>
        rw [hr] at h
        simp only [Option.map_some', Option.some.injEq] at h
        subst h
        have hxf : isTimestampHeader x = false := by simpa using hx
        rw [List.filter_cons]
        simp only [hxf, Bool.not_false, if_true]
        rw [filter_not_ts_eq_eraseIdx rest k' hr (fun i hi hts => by
          have := huniq (i + 1) (by simp only [List.length_cons]; omega)
            (by rw [List.getD_cons_succ]; exact hts)
          omega)]
        rfl

/-- The column map of a one-file merge: the timestamp column goes to slot 0,
a column left of it shifts one slot right, a column right of it keeps its
index. -/
theorem buildColMap_single (hs : List String) (k : Nat)
    (hk : k < hs.length)
    (hkts : isTimestampHeader (hs.getD k "") = true)
    (huniq : ∀ i, i < hs.length → isTimestampHeader (hs.getD i "") = true → i = k)
    (hnd : (hs.map asciiLower).Nodup)
    (i : Nat) (hi : i < hs.length) :
    (buildColMap (hs.getD k "" :: hs.eraseIdx k) hs).getD i 0 =
      if i = k then 0 else if i < k then i + 1 else i := by
  unfold buildColMap
  rw [getD_map_str _ hs i hi]
  by_cases hik : i = k
  · subst hik
    rw [if_pos hkts, if_pos rfl]
  · rw [if_neg hik]
    have hits : isTimestampHeader (hs.getD i "") = false := by
      by_contra hc
      exact hik (huniq i hi (by simpa using hc))
    rw [if_neg (by rw [hits]; simp)]
    have hlow_ne : ∀ j, j < hs.length → j ≠ i →
        eqIgnoreAsciiCase (hs.getD j "") (hs.getD i "") = false := by
      intro j hj hji
      rw [Bool.eq_false_iff]
      intro hc
      have hlow : asciiLower (hs.getD j "") = asciiLower (hs.getD i "") := by
        simpa [eqIgnoreAsciiCase] using hc
      have hj2 : j < (hs.map asciiLower).length := by simpa using hj
      have hi2 : i < (hs.map asciiLower).length := by simpa using hi
      have hjm : (hs.map asciiLower)[j] = (hs.map asciiLower)[i] := by
        rw [List.getElem_map, List.getElem_map]
        rw [← List.getD_eq_getElem hs "" hj, ← List.getD_eq_getElem hs "" hi]
        exact hlow
      exact hji (hnd.getElem_inj_iff.mp hjm)
    rw [List.findIdx?_cons]
    have hcan : eqIgnoreAsciiCase (hs.getD k "") (hs.getD i "") = false :=
      hlow_ne k hk (fun he => hik he.symm)
    rw [hcan]
    simp only [Bool.false_eq_true, if_false]
    rw [show (0 : Nat) + 1 = 0 + 1 from rfl, findIdx?_succ_start]
    have hfind : List.findIdx? (fun gh => eqIgnoreAsciiCase gh (hs.getD i ""))
        (hs.eraseIdx k) 0 = some (0 + (if i < k then i else i - 1)) := by
      apply findIdx?_eq_some_of _ ""
      · rw [List.length_eraseIdx, if_pos hk]
        split_ifs <;> omega
      · rw [getD_eraseIdx]
        have hidx : (if (if i < k then i else i - 1) < k then (if i < k then i else i - 1)
            else (if i < k then i else i - 1) + 1) = i := by
          split_ifs <;> omega
        rw [hidx]
        exact eqIgnoreAsciiCase_refl _
      · intro t ht
        rw [getD_eraseIdx]
        apply hlow_ne
        · split_ifs at ht ⊢ <;> omega
        · split_ifs at ht ⊢ <;> omega
    rw [hfind]
    simp only [Option.map_some']
    show (0 + if i < k then i else i - 1) + 1 = if i < k then i + 1 else i
    split_ifs <;> omega

/-- When exactly one local index maps to global column `g`, the row's write
list at `g` is just that index's value (when present). -/
theorem rowWritesAt_unique (cm : List Nat) (g i0 : Nat)
    (huniq : ∀ i, i < cm.length → (cm.getD i 0 = g ↔ i = i0))
    (hi0 : i0 < cm.length) :
    ∀ (vals : List (Option ℚ)) (s : Nat),
      rowWritesAt cm g s vals =
        if s ≤ i0 ∧ i0 < s + vals.length then (vals.getD (i0 - s) none).toList else []
  | [], s => by
    rw [if_neg (by simp)]
    rfl
  | v :: rest, s => by
    unfold rowWritesAt
    rw [rowWritesAt_unique cm g i0 huniq hi0 rest (s + 1)]
    simp only [List.length_cons]
    by_cases hsi : s = i0
    · subst hsi
      rw [if_pos ⟨hi0, (huniq s hi0).mpr rfl⟩]
      rw [if_neg (by omega), if_pos (by omega)]
      simp [Nat.sub_self]
    · have hw0 : (if s < cm.length ∧ cm.getD s 0 = g then v.toList else []) = [] := by
        by_cases hs : s < cm.length
        · rw [if_neg]
          rintro ⟨_, hg⟩
          exact hsi ((huniq s hs).mp hg)
        · rw [if_neg (fun hc => hs hc.1)]
      rw [hw0]
      simp only [List.nil_append]
      by_cases hcond : s + 1 ≤ i0 ∧ i0 < s + 1 + rest.length
      · rw [if_pos hcond, if_pos (by omega)]
        have hsub : i0 - s = (i0 - (s + 1)) + 1 := by omega
        rw [hsub, List.getD_cons_succ]
      · rw [if_neg hcond, if_neg (by omega)]

/-- With the one-file column map, folding a row's writes into a fresh entry
moves the timestamp slot to index 0 and keeps the other values in order. -/
theorem applyRowWrites_moveFront (cm : List Nat) (n k : Nat) (hk : k < n)
    (hcmlen : cm.length = n)
    (hcm : ∀ i, i < n → cm.getD i 0 = if i = k then 0 else if i < k then i + 1 else i)
    (vals : List (Option ℚ)) (hvlen : vals.length = n) :
    applyRowWrites cm 0 vals (List.replicate n none) =
      vals.getD k none :: vals.eraseIdx k := by
  have hlenL : (applyRowWrites cm 0 vals (List.replicate n none)).length = n := by
    rw [applyRowWrites_length, List.length_replicate]
  have hlenR : (vals.getD k none :: vals.eraseIdx k).length = n := by
    rw [List.length_cons, List.length_eraseIdx, hvlen, if_pos (hvlen ▸ hk)]
    omega
  apply List.ext_getElem (by rw [hlenL, hlenR])
  intro g hg1 hg2
  have hgn : g < n := by rw [hlenL] at hg1; exact hg1
  rw [← List.getD_eq_getElem _ none hg1, ← List.getD_eq_getElem _ none hg2]
  rw [applyRowWrites_getD cm vals 0 _ g (by rw [List.length_replicate]; exact hgn)]
  rw [getD_replicate_none]
  have hi0lt : (if g = 0 then k else if g - 1 < k then g - 1 else g) < cm.length := by
    rw [hcmlen]
    split_ifs <;> omega
  have huniq : ∀ i, i < cm.length →
      (cm.getD i 0 = g ↔ i = if g = 0 then k else if g - 1 < k then g - 1 else g) := by
    intro i hi
    rw [hcmlen] at hi
    rw [hcm i hi]
    constructor
    · intro he
      split_ifs at he ⊢ <;> omega
    · intro he
      split_ifs at he ⊢ <;> omega
  rw [rowWritesAt_unique cm g _ huniq hi0lt vals 0]
  rw [if_pos ⟨Nat.zero_le _, by rw [hvlen]; simp only [Nat.zero_add]; split_ifs <;> omega⟩]
  rw [Nat.sub_zero, option_toList_getLast?, Option.or_none]
  cases g with
  | zero =>
    rw [if_pos rfl, List.getD_cons_zero]
  | succ j =>
    rw [if_neg (by omega)]
    rw [List.getD_cons_succ, getD_eraseIdx]
    simp only [Nat.add_sub_cancel]

theorem mapInsert_append_of_lt {t : String} {v : Entry} :
    ∀ {m : List (String × Entry)}, (∀ a ∈ mapKeys m, strLt a t = true) →
      mapInsert t v m = m ++ [(t, v)]
  | [], _ => rfl
  | (k1, v1) :: rest, h => by
    have h1 : strLt k1 t = true := h k1 (by simp [mapKeys])
    have hnlt : ¬ strLt t k1 = true := by
      intro hc
      have h2 := strLt_trans hc h1
      rw [strLt_irrefl] at h2
      exact absurd h2 (by simp)
    have hne : ¬ t = k1 := fun he => strLt_ne h1 he.symm
    unfold mapInsert
    rw [if_neg hnlt, if_neg hne]
    rw [mapInsert_append_of_lt (fun a ha => h a (by simp [mapKeys] at ha ⊢; exact Or.inr ha))]
    rfl

/-- Folding rows whose timestamps are all present and strictly ascend, into
an accumulator whose keys all precede them: the accumulator grows by one
binding per row, in row order. -/
theorem foldl_mergeRow_ascending {L : Nat} {cm : List Nat} :
    ∀ (rows : List CsvRecord) (m : List (String × Entry)),
      (∀ r ∈ rows, ∃ t, r.timestamp = some t) →
      List.Pairwise (fun a b => strLt a b = true)
        (mapKeys m ++ rows.filterMap CsvRecord.timestamp) →
      rows.foldl (mergeRow L cm) m =
        m ++ rows.map (fun r =>
          (r.timestamp.getD "", applyRowWrites cm 0 r.values (List.replicate L none)))
  | [], m, _, _ => by simp
  | r :: rest, m, hts, hpw => by
    obtain ⟨t, ht⟩ := hts r (List.mem_cons_self _ _)
    have hfm : (r :: rest).filterMap CsvRecord.timestamp =
        t :: rest.filterMap CsvRecord.timestamp := by
      rw [List.filterMap_cons, ht]
    rw [hfm] at hpw
    have hkeys : ∀ a ∈ mapKeys m, strLt a t = true := fun a ha =>
      (List.pairwise_append.mp hpw).2.2 a ha t (List.mem_cons_self _ _)
    have hlknone : mapLookup t m = none :=
      mapLookup_none_of_forall (fun a ha => strLt_ne (hkeys a ha))
    have hstep : mergeRow L cm m r =
        m ++ [(t, applyRowWrites cm 0 r.values (List.replicate L none))] := by
      unfold mergeRow
      rw [ht]
      dsimp only
      rw [hlknone]
      simp only [Option.getD_none]
      exact mapInsert_append_of_lt hkeys
    have hpw' : List.Pairwise (fun a b => strLt a b = true)
        (mapKeys (m ++ [(t, applyRowWrites cm 0 r.values (List.replicate L none))]) ++
          rest.filterMap CsvRecord.timestamp) := by
      have hmk : mapKeys (m ++ [(t, applyRowWrites cm 0 r.values (List.replicate L none))]) =
          mapKeys m ++ [t] := by simp [mapKeys]
      rw [hmk, List.append_assoc, List.singleton_append]
      exact hpw
    simp only [List.foldl_cons]
    rw [hstep,
      foldl_mergeRow_ascending rest
        (m ++ [(t, applyRowWrites cm 0 r.values (List.replicate L none))])
        (fun x hx => hts x (List.mem_cons_of_mem _ hx)) hpw']
    rw [List.map_cons, show r.timestamp.getD "" = t from by rw [ht]; rfl]
    simp [List.append_assoc]

/-- C4 counterexample: `cexSingle` is the direct parse of a two-row file
whose timestamps descend; merging that single file sorts its rows by
timestamp, so the merged table differs from the direct parse with the
timestamp column moved to the front (here the timestamp column is already
at index 0, so that move changes nothing). -/
theorem merge_single_file_counterexample :
    read_csv exParse ["time", "A"] [["b", "1"], ["a", "2"]] = Except.ok cexSingle ∧
    read_merge_csvs [cexSingle] ≠ Except.ok (moveTimestampToFront cexSingle) := by
  constructor
  · decide
  · decide

/-- C4 (amended): merging a list holding one parsed table equals that table
with the timestamp column renamed to the canonical name and moved to header
index 0 (values re-aligned) - provided the table has exactly one
timestamp-like header, its headers are pairwise distinct after ASCII
lowering, every row is as wide as the headers, every row's timestamp is
present, and the rows already ascend strictly by timestamp. -/
theorem merge_single_file_amended (d : ProcessedData) (k : Nat)
    (hk : d.headers.findIdx? (fun h => isTimestampHeader h) = some k)
    (huniq : ∀ i, i < d.headers.length →
      isTimestampHeader (d.headers.getD i "") = true → i = k)
    (hnd : (d.headers.map asciiLower).Nodup)
    (hlen : ∀ r ∈ d.rows, r.values.length = d.headers.length)
    (hts : ∀ r ∈ d.rows, (r.timestamp).isSome = true)
    (hsort : StrAsc (d.rows.filterMap CsvRecord.timestamp)) :
    read_merge_csvs [d] = Except.ok (moveTimestampToFront d) := by
  have hkspec := findIdx?_some_spec (fun h => isTimestampHeader h) "" d.headers 0 k hk
  simp only [Nat.sub_zero] at hkspec
  obtain ⟨-, hklt, hkts, -⟩ := hkspec
  have hfind : d.headers.find? (fun h => isTimestampHeader h) = some (d.headers.getD k "") :=
    find?_of_findIdx? _ "" d.headers k hk
  have hcanon : canonicalTsHeader [d] = d.headers.getD k "" := by
    show ((d.headers.find? (fun h => isTimestampHeader h)).getD "timestamp") =
      d.headers.getD k ""
    rw [hfind, Option.getD_some]
  have hgh : globalHeadersFold [d] (canonicalTsHeader [d]) =
      d.headers.getD k "" :: d.headers.eraseIdx k := by
    rw [hcanon, globalHeaders_single d _ hkts hnd,
      filter_not_ts_eq_eraseIdx d.headers k hk huniq]
  have hghlen : (globalHeadersFold [d] (canonicalTsHeader [d])).length = d.headers.length := by
    rw [hgh, List.length_cons, List.length_eraseIdx, if_pos hklt]
    omega
  have hcmlen : (buildColMap (globalHeadersFold [d] (canonicalTsHeader [d])) d.headers).length =
      d.headers.length := by
    unfold buildColMap
    rw [List.length_map]
  have hcm : ∀ i, i < d.headers.length →
      (buildColMap (globalHeadersFold [d] (canonicalTsHeader [d])) d.headers).getD i 0 =
        if i = k then 0 else if i < k then i + 1 else i := by
    intro i hi
    rw [hgh]
    exact buildColMap_single d.headers k hklt hkts huniq hnd i hi
  have htsx : ∀ r ∈ d.rows, ∃ t, r.timestamp = some t :=
    fun r hr => Option.isSome_iff_exists.mp (hts r hr)
  unfold read_merge_csvs
  rw [if_neg (by simp)]
  dsimp only
  simp only [List.foldl_cons, List.foldl_nil]
  unfold mergeDataset
  dsimp only
  rw [foldl_mergeRow_ascending d.rows [] htsx (by simpa [mapKeys] using hsort)]
  rw [List.nil_append]
  unfold moveTimestampToFront
  dsimp only
  rw [hk, hfind]
  simp only [Option.getD_some, Except.ok.injEq, ProcessedData.mk.injEq]
  refine ⟨hgh, ?_⟩
  rw [List.map_map]
  apply List.map_congr_left
  intro r hr
  obtain ⟨t, ht⟩ := htsx r hr
  dsimp only [Function.comp]
  rw [ht, hghlen,
    applyRowWrites_moveFront
      (buildColMap (globalHeadersFold [d] (canonicalTsHeader [d])) d.headers)
      d.headers.length k hklt hcmlen hcm r.values (hlen r hr)]
  simp only [Option.getD_some]

/-- C4 amended-claim witness: the sorted single file merges to its own
timestamp-fronted form. -/
theorem merge_single_file_amended_witness :
    read_merge_csvs [exSingleSorted] = Except.ok (moveTimestampToFront exSingleSorted) :=
  merge_single_file_amended exSingleSorted 0 (by decide) (by decide) (by decide)
    (by decide) (by decide) (by decide)

/-- C10 witness: a concrete two-column table with the invariant satisfied. -/
theorem calc_never_out_of_bounds_witness :
    (∀ r ∈ exD1.rows, exD1.headers.length ≤ r.values.length) ∧
    (calculate_new_sensor (fun a _ => a) ["A"]
      { mode := "single", single_op := some { op_type := "add", value := 1 },
        multi_op := none, custom_name := none } exD1).2 ≠ Except.error outOfBounds :=
  ⟨by decide, calc_never_out_of_bounds (fun a _ => a) ["A"]
    { mode := "single", single_op := some { op_type := "add", value := 1 },
      multi_op := none, custom_name := none } exD1 (by decide)⟩

end SensorViz
